import Mathlib

/-!
# Verification of the Minecraft asset-cache synchronizer

Shallow embedding of `minecraft-assets-cache/create/main.mjs` from
`neoforged/actions-modding`, together with proofs about the claims of its
specification.

Modelling conventions:
* file and response bodies are byte lists (`Bytes`);
* the local filesystem is an association list from paths to contents, where
  a write prepends (the newest entry shadows older ones);
* the hash primitive `createHash(method).update(..).digest("hex")` is an
  uninterpreted parameter `digest : Bytes → String` (a single checksum method,
  `"sha1"`, is used by every call in the source);
* one `fetch(url)` call either rejects (a transport failure) or resolves to a
  response with an HTTP status and body; successive fetches of the retry loop
  are indexed by attempt number through an oracle `net : Nat → FetchOutcome`;
* `JSON.parse(..).objects` on an asset-index file is an uninterpreted parameter
  `parseIndex : Bytes → Option (List (String × AObj))` (`none` models a thrown
  `SyntaxError` or a missing field).
-/

namespace AssetsCache

/-- Bytes of a file or of a network response body. -/
abbrev Bytes := List Nat

/-- The local filesystem: paths mapped to file contents.  A write prepends,
`fsGet` returns the most recent entry. -/
abbrev FS := List (String × Bytes)

def fsGet (fs : FS) (p : String) : Option Bytes :=
  (fs.find? (fun kv => kv.1 == p)).map Prod.snd

def fsSet (fs : FS) (p : String) (b : Bytes) : FS := (p, b) :: fs

/-- Outcome of one `fetch(url)` call: either the promise rejects (transport
failure such as DNS or connection errors) or it resolves to a response. -/
inductive FetchOutcome where
  | thrown (msg : String)
  | resp (status : Nat) (body : Bytes)
deriving DecidableEq

/-- `Response.ok`: the status is in the inclusive range 200..299. -/
def respOk (status : Nat) : Bool := 200 ≤ status && status ≤ 299

/-- Errors escaping `downloadIfChanged`. -/
inductive DlError where
  /-- The `fetch` promise rejected; the exception propagates uncaught. -/
  | fetchThrown (msg : String)
  /-- `new Error("Failed to download " + url + ": " + lastError)`. -/
  | downloadFailed (url : String) (reason : String)
  /-- Unreachable artifact: the loop exited with no error and no buffer
  (in the source this would be `writeFile(localPath, undefined)`). -/
  | invalidBuffer
deriving DecidableEq

def maxConcurrency : Nat := 20

def maxDownloadRetries : Nat := 5

/-- Source text: "Size of downloaded file didn't match expected size". -/
def sizeMismatchMsg : String := "Size of downloaded file did not match expected size"

def checksumMismatchMsg : String := "Checksum mismatch for downloaded file"

def httpErrorMsg (status : Nat) : String := "HTTP Error " ++ toString status

/-- The retry loop of `downloadIfChanged`.  The source loop
`while (retries++ < maxDownloadRetries)` performs `maxDownloadRetries`
iterations unless exited by `break`; it is transcribed with a structural
countdown `rem` (initially `maxDownloadRetries`) alongside the running
attempt index used to address the network oracle.  The loop returns the pair
`(lastError, buffer)` it exits with; a rejected `fetch` escapes as an error. -/
def dlLoop (digest : Bytes → String) (checksum : String) (size : Nat)
    (net : Nat → FetchOutcome) :
    Nat → Nat → Option String → Option Bytes →
    Except DlError (Option String × Option Bytes)
  | _, 0, lastError, buffer => .ok (lastError, buffer)
  | attempt, rem + 1, _, buffer =>
    match net attempt with
    | .thrown msg => .error (.fetchThrown msg)
    | .resp status body =>
      if respOk status then
        if body.length ≠ size then
          dlLoop digest checksum size net (attempt + 1) rem (some sizeMismatchMsg) (some body)
        else if digest body ≠ checksum then
          dlLoop digest checksum size net (attempt + 1) rem (some checksumMismatchMsg) (some body)
        else
          .ok (none, some body)
      else
        dlLoop digest checksum size net (attempt + 1) rem (some (httpErrorMsg status)) buffer

/-- The local probe of `downloadIfChanged`: the file exists, its size equals
the expected size, and (only computed in that case) its checksum matches. -/
def verifiedLocal (digest : Bytes → String) (localContent : Option Bytes)
    (checksum : String) (size : Nat) : Bool :=
  match localContent with
  | some b => if b.length = size then digest b == checksum else false
  | none => false

/-- `downloadIfChanged(localPath, url, checksumMethod, checksum, size)`.
`localContent` is the current content of `localPath` (`none` models the
`ENOENT` branch of the `stat` call).  The result is `(downloaded, written)`:
`downloaded` is the boolean the function returns, and `written = some b`
exactly when the function wrote `b` to the local path. -/
def downloadIfChanged (digest : Bytes → String) (localContent : Option Bytes)
    (url : String) (checksum : String) (size : Nat) (net : Nat → FetchOutcome) :
    Except DlError (Bool × Option Bytes) :=
  if verifiedLocal digest localContent checksum size then .ok (false, none)
  else
    match dlLoop digest checksum size net 0 maxDownloadRetries none none with
    | .error e => .error e
    | .ok (some lastError, _) => .error (.downloadFailed url lastError)
    | .ok (none, some buffer) => .ok (true, some buffer)
    | .ok (none, none) => .error .invalidBuffer

/-- The reason a response is rejected by one attempt of the retry loop,
`none` when the attempt would be accepted (or when the fetch rejected, which
is not a recorded retry reason). -/
def failReason (digest : Bytes → String) (checksum : String) (size : Nat) :
    FetchOutcome → Option String
  | .thrown _ => none
  | .resp status body =>
    if respOk status then
      if body.length ≠ size then some sizeMismatchMsg
      else if digest body ≠ checksum then some checksumMismatchMsg
      else none
    else some (httpErrorMsg status)

/-- An attempt outcome that the loop retries after: a response (not a
rejection) recording a retry reason. -/
def retryFail (digest : Bytes → String) (checksum : String) (size : Nat)
    (o : FetchOutcome) : Bool :=
  (failReason digest checksum size o).isSome

/-- An attempt outcome the loop accepts: a success-status response whose body
has the expected length and digest. -/
def goodResp (digest : Bytes → String) (checksum : String) (size : Nat) :
    FetchOutcome → Bool
  | .thrown _ => false
  | .resp status body => respOk status && body.length == size && digest body == checksum

/-- Body of a response outcome (the empty body for a rejected fetch). -/
def bodyOf : FetchOutcome → Bytes
  | .thrown _ => []
  | .resp _ body => body

/-! ## Version resolution and asset download (`getAssetIndices`, `downloadAssets`) -/

/-- One entry of `objects` in a parsed asset index: `{hash, size}`.  The
logical path under which a manifest lists an object is kept separately and
discarded by deduplication. -/
structure AObj where
  hash : String
  size : Nat
deriving DecidableEq

/-- The `assetIndex` descriptor extracted from a version metadata document:
`{id, url, sha1, size}`. -/
structure AssetIndexDescr where
  id : String
  url : String
  sha1 : String
  size : Nat
deriving DecidableEq

/-- One entry of `versions` in the global version manifest. -/
structure VersionEntry where
  id : String
  url : String
deriving DecidableEq

/-- Assignment `m[k] = v` on a JavaScript object viewed as an insertion-ordered
association list: an existing key keeps its position and gets the new value, a
new key is appended. -/
def objInsert {α : Type} (m : List (String × α)) (k : String) (v : α) :
    List (String × α) :=
  if m.any (fun kv => kv.1 == k) then
    m.map (fun kv => if kv.1 == k then (k, v) else kv)
  else m ++ [(k, v)]

/-- `Object.values` of a JavaScript object viewed as above. -/
def objValues {α : Type} (m : List (String × α)) : List α := m.map Prod.snd

/-- The deduplication
`Object.values(Object.fromEntries(values.map(o => [o.hash, o])))`:
build an object keyed by content hash (later duplicates overwrite the value at
the first position) and take its values. -/
def dedupObjects (objs : List AObj) : List AObj :=
  objValues (objs.foldl (fun m o => objInsert m o.hash o) [])

/-- The chunking loop of `downloadAssets`, transcribed with a structural
countdown: one iteration consumes at least one element, so a fuel of
`l.length` (supplied by `chunksOf`) never runs out for a positive chunk
size. -/
def chunksOfGo {α : Type} (n : Nat) : Nat → List α → List (List α)
  | 0, _ => []
  | fuel + 1, l =>
    if l.isEmpty || n == 0 then []
    else l.take n :: chunksOfGo n fuel (l.drop n)

/-- The chunking loop
`for (let i = 0; i < objects.length; i += maxConcurrency)` with
`objects.slice(i, i + maxConcurrency)`: consecutive slices of at most `n`
elements. -/
def chunksOf {α : Type} (n : Nat) (l : List α) : List (List α) :=
  chunksOfGo n l.length l

/-- `path.join` restricted to the plain relative segments the source uses. -/
def pjoin (a b : String) : String := a ++ "/" ++ b

/-- `hash.substring(0, 2)`. -/
def hashPre (hash : String) : String := hash.take 2

/-- The canonical origin URL of a content object. -/
def objectUrl (hash : String) : String :=
  "https://resources.download.minecraft.net/" ++ hashPre hash ++ "/" ++ hash

/-- `path.join(assetsFolder, "objects", hashPrefix, hash)`. -/
def objectPath (assetsFolder hash : String) : String :=
  pjoin (pjoin (pjoin assetsFolder "objects") (hashPre hash)) hash

/-- `path.join(assetsFolder, "indexes", assetIndex.id + ".json")`. -/
def indexPath (assetsFolder id : String) : String :=
  pjoin (pjoin assetsFolder "indexes") (id ++ ".json")

/-- Errors escaping `getAssetIndices`. -/
inductive GaiError where
  /-- `new Error("Minecraft version " + version + " not found")`, thrown when
  the requested version is absent from the manifest (or its `url` is falsy). -/
  | versionNotFound (version : String)
  /-- A failed or unparsable metadata fetch (`downloadJson` throwing). -/
  | remoteFetch (msg : String)
deriving DecidableEq

/-- The loop of `getAssetIndices` over the requested versions, accumulating
`assetIndices[assetIndex.id] = assetIndex`.  `metaFetch` models
`downloadJson(versionMetaUrl)` followed by extraction of its `assetIndex`
field. -/
def getAssetIndicesGo (manifest : List VersionEntry)
    (metaFetch : String → Except String AssetIndexDescr)
    (acc : List (String × AssetIndexDescr)) :
    List String → Except GaiError (List (String × AssetIndexDescr))
  | [] => .ok acc
  | version :: rest =>
    match (manifest.find? (fun v => v.id == version)).map VersionEntry.url with
    | none => .error (.versionNotFound version)
    | some url =>
      if url = "" then .error (.versionNotFound version)
      else
        match metaFetch url with
        | .error msg => .error (.remoteFetch msg)
        | .ok d => getAssetIndicesGo manifest metaFetch (objInsert acc d.id d) rest

/-- `getAssetIndices(minecraftVersions)`: resolve every requested version
through the global manifest to its asset-index descriptor, keyed by the
descriptor id.  The empty-string case mirrors the falsiness test
`if (!versionMetaUrl)` of the source. -/
def getAssetIndices (manifest : List VersionEntry)
    (metaFetch : String → Except String AssetIndexDescr)
    (versions : List String) : Except GaiError (List (String × AssetIndexDescr)) :=
  getAssetIndicesGo manifest metaFetch [] versions

/-- Errors escaping `downloadAssets`. -/
inductive SyncError where
  | resolve (e : GaiError)
  | download (e : DlError)
  /-- `readFile` of the asset-index file failing (unreachable after a
  successful `downloadIfChanged`). -/
  | readIndex (p : String)
  /-- `JSON.parse` throwing on the asset-index file (or `objects` missing). -/
  | manifestParse (p : String)
deriving DecidableEq

/-- The first rejection among the settled results of one batch, mirroring a
rejected `Promise.all`: every member has run, the first error surfaces. -/
def firstErr {α : Type} : List (Except DlError α) → Option DlError
  | [] => none
  | .error e :: _ => some e
  | .ok _ :: rest => firstErr rest

/-- One member of a batch: run `downloadIfChanged` for object `o` against the
filesystem, returning the updated filesystem and the member's settled result.
A failed member writes nothing; a successful one applies its write. -/
def objStep (digest : Bytes → String) (net : String → Nat → FetchOutcome)
    (assetsFolder : String) (fs : FS) (o : AObj) : FS × Except DlError Bool :=
  let p := objectPath assetsFolder o.hash
  match downloadIfChanged digest (fsGet fs p) (objectUrl o.hash) o.hash
      o.size (net (objectUrl o.hash)) with
  | .error e => (fs, .error e)
  | .ok (d, none) => (fs, .ok d)
  | .ok (d, some b) => (fsSet fs p b, .ok d)

/-- One batch: run `downloadIfChanged` for every member of the chunk against
the evolving filesystem, collecting each member's settled result. -/
def runChunk (digest : Bytes → String) (net : String → Nat → FetchOutcome)
    (assetsFolder : String) (fs : FS) (chunk : List AObj) :
    FS × List (Except DlError Bool) :=
  chunk.foldl
    (fun st o =>
      let r := objStep digest net assetsFolder st.1 o
      (r.1, st.2 ++ [r.2]))
    (fs, [])

/-- The batch loop of `downloadAssets`: batches run strictly one after
another; after each batch the first failure (if any) aborts the remaining
batches; otherwise the count of downloaded files grows by the number of
members reporting `true`. -/
def runChunks (digest : Bytes → String) (net : String → Nat → FetchOutcome)
    (assetsFolder : String) :
    List (List AObj) → FS → Nat → Except SyncError (FS × Nat)
  | [], fs, count => .ok (fs, count)
  | chunk :: rest, fs, count =>
    let r := runChunk digest net assetsFolder fs chunk
    match firstErr r.2 with
    | some e => .error (.download e)
    | none =>
      runChunks digest net assetsFolder rest r.1
        (count + r.2.countP (fun x => match x with | .ok true => true | _ => false))

/-- Processing of one asset index inside `downloadAssets`: download the index
file if changed, read it back, parse it, deduplicate its objects by content
hash, and run the batched object downloads.  Returns the new filesystem and
the `downloadedFiles` count for this index. -/
def processIndex (digest : Bytes → String)
    (parseIndex : Bytes → Option (List (String × AObj)))
    (net : String → Nat → FetchOutcome) (assetsFolder : String) (fs : FS)
    (assetIndex : AssetIndexDescr) : Except SyncError (FS × Nat) :=
  let ipath := indexPath assetsFolder assetIndex.id
  match downloadIfChanged digest (fsGet fs ipath) assetIndex.url assetIndex.sha1
      assetIndex.size (net assetIndex.url) with
  | .error e => .error (.download e)
  | .ok (_, w) =>
    let fs1 := match w with
      | some b => fsSet fs ipath b
      | none => fs
    match fsGet fs1 ipath with
    | none => .error (.readIndex ipath)
    | some content =>
      match parseIndex content with
      | none => .error (.manifestParse ipath)
      | some entries =>
        let objects := dedupObjects (objValues entries)
        runChunks digest net assetsFolder (chunksOf maxConcurrency objects) fs1 0

/-- The loop of `downloadAssets` over the resolved asset indices, accumulating
the per-index downloaded counts. -/
def processIndices (digest : Bytes → String)
    (parseIndex : Bytes → Option (List (String × AObj)))
    (net : String → Nat → FetchOutcome) (assetsFolder : String) :
    List AssetIndexDescr → FS → List Nat → Except SyncError (FS × List Nat)
  | [], fs, counts => .ok (fs, counts)
  | d :: rest, fs, counts =>
    match processIndex digest parseIndex net assetsFolder fs d with
    | .error e => .error e
    | .ok (fs', c) => processIndices digest parseIndex net assetsFolder rest fs' (counts ++ [c])

/-- `downloadAssets(minecraftVersions, assetsFolder)` acting on a filesystem
`fs`: resolve the versions, then process each distinct asset index.  Returns
the final filesystem and the list of per-index downloaded counts. -/
def downloadAssets (digest : Bytes → String)
    (parseIndex : Bytes → Option (List (String × AObj)))
    (net : String → Nat → FetchOutcome) (manifest : List VersionEntry)
    (metaFetch : String → Except String AssetIndexDescr)
    (versions : List String) (assetsFolder : String) (fs : FS) :
    Except SyncError (FS × List Nat) :=
  match getAssetIndices manifest metaFetch versions with
  | .error e => .error (.resolve e)
  | .ok indices => processIndices digest parseIndex net assetsFolder (objValues indices) fs []

/-- The deduplicated object list an asset index contributes, as recoverable
from a filesystem state: the parsed content of its index file (empty when the
file is absent or unparsable). -/
def indexObjects (parseIndex : Bytes → Option (List (String × AObj)))
    (assetsFolder : String) (fs : FS) (d : AssetIndexDescr) : List AObj :=
  match fsGet fs (indexPath assetsFolder d.id) with
  | none => []
  | some content =>
    match parseIndex content with
    | none => []
    | some entries => dedupObjects (objValues entries)

/-- A path holds content verified against an expected checksum and size. -/
def verifiedFile (digest : Bytes → String) (fs : FS) (p : String)
    (checksum : String) (size : Nat) : Prop :=
  ∃ b, fsGet fs p = some b ∧ b.length = size ∧ digest b = checksum

/-- A filesystem is settled for an asset index: the index file is present and
verified against the descriptor, it parses, and every deduplicated object it
lists is present and verified at its content-addressed path. -/
def IndexSettled (digest : Bytes → String)
    (parseIndex : Bytes → Option (List (String × AObj)))
    (assetsFolder : String) (fs : FS) (d : AssetIndexDescr) : Prop :=
  ∃ b entries,
    fsGet fs (indexPath assetsFolder d.id) = some b ∧
    b.length = d.size ∧ digest b = d.sha1 ∧
    parseIndex b = some entries ∧
    ∀ o ∈ dedupObjects (objValues entries),
      verifiedFile digest fs (objectPath assetsFolder o.hash) o.hash o.size

/-! ## Regular expressions (`guessCurrentMinecraftVersionFromFile`)

The source calls the JavaScript `RegExp` engine twice: once with the literal
`/\/(.*)\/([a-z]*)/` to split the configured `/pattern/flags` string, and once
with `new RegExp(pattern, flags)` against the file content.  Both are modelled
by an executable backtracking matcher over a small regular-expression syntax
covering the constructs the source and its inputs use (literals, escapes,
character classes, `.`, `^`, `$`, capturing groups, `*`, `+`, `?`, and the
multiline flag), with JavaScript `exec` semantics: leftmost match, greedy
quantifiers with backtracking, first capturing group recorded by position. -/

/-- Syntax nodes of the modelled regular expressions. -/
inductive RNode where
  | lit (c : Char)
  | cls (neg : Bool) (ranges : List (Char × Char))
  | dot
  | anchorStart
  | anchorEnd
  | group (idx : Nat) (body : List RNode)
  | star (n : RNode)
  | plus (n : RNode)
  | opt (n : RNode)
deriving Repr

/-- The ranges of the JavaScript class `\s` (WhiteSpace and LineTerminator). -/
def wsRanges : List (Char × Char) :=
  [('\t', '\r'), (' ', ' '), ('\u00A0', '\u00A0'), ('\u1680', '\u1680'),
   ('\u2000', '\u200A'), ('\u2028', '\u2029'), ('\u202F', '\u202F'),
   ('\u205F', '\u205F'), ('\u3000', '\u3000'), ('\uFEFF', '\uFEFF')]

/-- The ranges of the JavaScript class `\w`. -/
def wordRanges : List (Char × Char) :=
  [('A', 'Z'), ('a', 'z'), ('0', '9'), ('_', '_')]

/-- The ranges of the JavaScript class `\d`. -/
def digitRanges : List (Char × Char) := [('0', '9')]

/-- ECMAScript line terminators (the characters `.` does not match, and the
positions multiline `^`/`$` anchor at). -/
def isLineTerm (c : Char) : Bool :=
  c = '\n' || c = '\r' || c = '\u2028' || c = '\u2029'

def inRanges (ranges : List (Char × Char)) (c : Char) : Bool :=
  ranges.any (fun r => r.1 ≤ c && c ≤ r.2)

def clsMatch (neg : Bool) (ranges : List (Char × Char)) (c : Char) : Bool :=
  if neg then !(inRanges ranges c) else inRanges ranges c

/-- Captures recorded so far: group index mapped to its span `[start, stop)`.
The most recent recording of a group shadows older ones. -/
abbrev Caps := List (Nat × Nat × Nat)

def capSet (caps : Caps) (i : Nat) (a b : Nat) : Caps := (i, a, b) :: caps

def capGet (caps : Caps) (i : Nat) : Option (Nat × Nat) :=
  (caps.find? (fun kv => kv.1 == i)).map Prod.snd

/-- The backtracking matcher.  `mtch fuel ms s nodes pos caps k` tries to match
the node sequence `nodes` against `s` starting at `pos` and calls the
continuation `k` with the position and captures after the sequence; `none`
signals failure and drives backtracking.  Greedy quantifiers try the longer
alternative first; an iteration of `*` whose body matched without consuming
input ends the repetition, as in ECMAScript.  `fuel` bounds the recursion. -/
def mtch (ms : Bool) (s : List Char) :
    Nat → List RNode → Nat → Caps → (Nat → Caps → Option (Nat × Caps)) →
    Option (Nat × Caps)
  | 0, _, _, _, _ => none
  | _ + 1, [], pos, caps, k => k pos caps
  | fuel + 1, n :: rest, pos, caps, k =>
    match n with
    | .lit c =>
      match s.get? pos with
      | some c' => if c' = c then mtch ms s fuel rest (pos + 1) caps k else none
      | none => none
    | .cls neg ranges =>
      match s.get? pos with
      | some c' => if clsMatch neg ranges c' then mtch ms s fuel rest (pos + 1) caps k else none
      | none => none
    | .dot =>
      match s.get? pos with
      | some c' => if isLineTerm c' then none else mtch ms s fuel rest (pos + 1) caps k
      | none => none
    | .anchorStart =>
      if pos = 0 then mtch ms s fuel rest pos caps k
      else if ms then
        match s.get? (pos - 1) with
        | some c' => if isLineTerm c' then mtch ms s fuel rest pos caps k else none
        | none => none
      else none
    | .anchorEnd =>
      if pos = s.length then mtch ms s fuel rest pos caps k
      else if ms then
        match s.get? pos with
        | some c' => if isLineTerm c' then mtch ms s fuel rest pos caps k else none
        | none => none
      else none
    | .group i body =>
      mtch ms s fuel body pos caps
        (fun pos' caps' => mtch ms s fuel rest pos' (capSet caps' i pos pos') k)
    | .star b =>
      (mtch ms s fuel [b] pos caps
        (fun pos' caps' =>
          if pos < pos' then mtch ms s fuel (RNode.star b :: rest) pos' caps' k
          else none)).orElse
        (fun _ => mtch ms s fuel rest pos caps k)
    | .plus b => mtch ms s fuel (b :: RNode.star b :: rest) pos caps k
    | .opt b =>
      (mtch ms s fuel [b] pos caps
        (fun pos' caps' => mtch ms s fuel rest pos' caps' k)).orElse
        (fun _ => mtch ms s fuel rest pos caps k)

/-- Fuel ample for the matcher on the concrete patterns and inputs considered
(each recursion step consumes one unit). -/
def mtchFuel (s : List Char) : Nat := (s.length + 1) * 4096 + 65536

/-- Try a match attempt at each start position in increasing order (the
`exec` search loop for a non-global, non-sticky regular expression). -/
def execFrom (ms : Bool) (nodes : List RNode) (s : List Char) :
    Nat → Nat → Option (Nat × Nat × Caps)
  | _, 0 => none
  | start, tries + 1 =>
    match mtch ms s (mtchFuel s) nodes start [] (fun p c => some (p, c)) with
    | some (stop, caps) => some (start, stop, caps)
    | none => execFrom ms nodes s (start + 1) tries

/-- `RegExp.prototype.exec` (and `String.prototype.match` without `g`): the
leftmost match of the pattern in `s`, as `(start, stop, captures)`. -/
def regexExec (ms : Bool) (nodes : List RNode) (s : List Char) :
    Option (Nat × Nat × Caps) :=
  execFrom ms nodes s 0 (s.length + 1)

/-- The string captured by group `i`, if the group participated in the match
(`matches[i]` of the result array). -/
def capStr (s : List Char) (caps : Caps) (i : Nat) : Option String :=
  (capGet caps i).map (fun ab => String.mk ((s.drop ab.1).take (ab.2 - ab.1)))

/-! ### Parsing `new RegExp(pattern, flags)` patterns -/

/-- Attach a postfix quantifier to a parsed atom if one follows. -/
def applyQuant (atom : RNode) : List Char → RNode × List Char
  | '*' :: rest => (.star atom, rest)
  | '+' :: rest => (.plus atom, rest)
  | '?' :: rest => (.opt atom, rest)
  | rest => (atom, rest)

/-- An escape sequence `\c` as an atom (`none`: a construct outside the
modelled fragment, such as backreferences or word boundaries). -/
def escAtom (c : Char) : Option RNode :=
  match c with
  | 's' => some (.cls false wsRanges)
  | 'S' => some (.cls true wsRanges)
  | 'w' => some (.cls false wordRanges)
  | 'W' => some (.cls true wordRanges)
  | 'd' => some (.cls false digitRanges)
  | 'D' => some (.cls true digitRanges)
  | 'n' => some (.lit '\n')
  | 't' => some (.lit '\t')
  | 'r' => some (.lit '\r')
  | 'f' => some (.lit '\x0C')
  | 'v' => some (.lit '\x0B')
  | 'b' => none
  | 'B' => none
  | 'u' => none
  | 'x' => none
  | 'c' => none
  | 'k' => none
  | 'p' => none
  | 'P' => none
  | '0' => none
  | '1' => none
  | '2' => none
  | '3' => none
  | '4' => none
  | '5' => none
  | '6' => none
  | '7' => none
  | '8' => none
  | '9' => none
  | other => some (.lit other)

/-- Parse the items of a character class up to the closing `]`, yielding the
collected ranges and the rest of the input. -/
def parseClassItems (acc : List (Char × Char)) :
    Nat → List Char → Option (List (Char × Char) × List Char)
  | 0, _ => none
  | _ + 1, [] => none
  | fuel + 1, c :: rest =>
    if c = ']' then some (acc.reverse, rest)
    else if c = '\\' then
      match rest with
      | [] => none
      | e :: rest' =>
        match escAtom e with
        | some (.lit c') => parseClassItems ((c', c') :: acc) fuel rest'
        | some (.cls false ranges) => parseClassItems (ranges.reverse ++ acc) fuel rest'
        | _ => none
    else
      match rest with
      | '-' :: d :: rest' =>
        if d = ']' then parseClassItems (('-', '-') :: (c, c) :: acc) fuel (d :: rest')
        else if d = '\\' then none
        else parseClassItems ((c, d) :: acc) fuel rest'
      | _ => parseClassItems ((c, c) :: acc) fuel rest

mutual

/-- Parse a node sequence until the end of input or an unconsumed `)`;
`gidx` numbers capturing groups from the left.  Returns the nodes, the rest of
the input, and the next group index. -/
def parseNodes (fuel : Nat) (cs : List Char) (gidx : Nat) :
    Option (List RNode × List Char × Nat) :=
  match fuel, cs with
  | 0, _ => none
  | _ + 1, [] => some ([], [], gidx)
  | fuel + 1, c :: rest =>
    if c = ')' then some ([], c :: rest, gidx)
    else
      match parseAtom fuel c rest gidx with
      | none => none
      | some (atom, rest', gidx') =>
        let q := applyQuant atom rest'
        match parseNodes fuel q.2 gidx' with
        | none => none
        | some (nodes, rem, gidx'') => some (q.1 :: nodes, rem, gidx'')

/-- Parse one atom whose first character is `c`. -/
def parseAtom (fuel : Nat) (c : Char) (rest : List Char) (gidx : Nat) :
    Option (RNode × List Char × Nat) :=
  match fuel with
  | 0 => none
  | fuel + 1 =>
    if c = '(' then
      match rest with
      | '?' :: _ => none
      | _ =>
        let g := gidx + 1
        match parseNodes fuel rest g with
        | none => none
        | some (body, rem, gidx') =>
          match rem with
          | ')' :: rem' => some (.group g body, rem', gidx')
          | _ => none
    else if c = '[' then
      match rest with
      | '^' :: rest' =>
        match parseClassItems [] (rest'.length + 1) rest' with
        | none => none
        | some (ranges, rem) => some (.cls true ranges, rem, gidx)
      | _ =>
        match parseClassItems [] (rest.length + 1) rest with
        | none => none
        | some (ranges, rem) => some (.cls false ranges, rem, gidx)
    else if c = '\\' then
      match rest with
      | [] => none
      | e :: rest' =>
        match escAtom e with
        | none => none
        | some atom => some (atom, rest', gidx)
    else if c = '.' then some (.dot, rest, gidx)
    else if c = '^' then some (.anchorStart, rest, gidx)
    else if c = '$' then some (.anchorEnd, rest, gidx)
    else if c = '|' then none
    else if c = '*' then none
    else if c = '+' then none
    else if c = '?' then none
    else if c = '{' then none
    else some (.lit c, rest, gidx)

end

/-- `new RegExp(pattern, ..)` for the modelled fragment: parse the whole
pattern string into a node sequence (`none` when the pattern falls outside the
fragment or is unbalanced). -/
def parseRegex (pattern : String) : Option (List RNode) :=
  match parseNodes (2 * pattern.length + 16) pattern.data 0 with
  | some (nodes, [], _) => some nodes
  | _ => none

/-- The literal `/\/(.*)\/([a-z]*)/` the source splits the configured
`/pattern/flags` string with. -/
def metaNodes : List RNode :=
  [.lit '/', .group 1 [.star .dot], .lit '/',
   .group 2 [.star (.cls false [('a', 'z')])]]

/-- `guessCurrentMinecraftVersionFromFile(minecraftVersionFile,
minecraftVersionRegexp)`.  `fileContent` is the content of the version file
(`none` models the `ENOENT` branch of `readFile`, returning `undefined`).
After the file is read, the configured string is split by the
`/pattern/flags` shape check (no match throws), the inner pattern is compiled
and executed against the whole content, and the first capturing group of the
first match is returned (`none` when nothing matches).  A pattern outside the
modelled regular-expression fragment is reported as an error. -/
def guessCurrentMinecraftVersionFromFile (fileContent : Option String)
    (minecraftVersionRegexp : String) : Except String (Option String) :=
  match fileContent with
  | none => .ok none
  | some content =>
    match regexExec false metaNodes minecraftVersionRegexp.data with
    | none => .error "minecraft-version-regexp doesnt match format /regexp/flags"
    | some m =>
      let pattern := (capStr minecraftVersionRegexp.data m.2.2 1).getD ""
      let flags := (capStr minecraftVersionRegexp.data m.2.2 2).getD ""
      match parseRegex pattern with
      | none => .error "pattern outside the modelled regular-expression fragment"
      | some nodes =>
        match regexExec (flags.data.contains 'm') nodes content.data with
        | none => .ok none
        | some m' => .ok (capStr content.data m'.2.2 1)

/-- The buffer carried into the next iteration after a retried attempt:
a response body replaces it (even on a size or checksum mismatch), a
non-success status leaves it unchanged. -/
def retryBuf (o : FetchOutcome) (bf : Option Bytes) : Option Bytes :=
  match o with
  | .thrown _ => bf
  | .resp status body => if respOk status then some body else bf


/-! ## Witness fixtures -/

def wDigest : Bytes → String := fun b => if b = [1] then "hh" else "xx"

def wNetGood : Nat → FetchOutcome := fun _ => .resp 200 [1]

def wNet500 : Nat → FetchOutcome := fun _ => .resp 500 []

def wNetLate : Nat → FetchOutcome := fun i => if i < 2 then .resp 500 [] else .resp 200 [1]

def wNetThrow : Nat → FetchOutcome := fun i => if i = 1 then .thrown "ECONNREFUSED" else .resp 500 []

def wMeta : String → Except String AssetIndexDescr := fun _ => .ok ⟨"17", "iu", "xx", 1⟩

def wEntries : List (String × AObj) :=
  [("icons/icon_16x16.png", ⟨"aabb", 1⟩), ("icons/icon_32x32.png", ⟨"aabb", 1⟩),
   ("minecraft/sounds/damage/hit1.ogg", ⟨"ccdd", 2⟩)]

def wObjs : List AObj := (List.range 45).map (fun i => ⟨toString i, i⟩)

def wDigest2 : Bytes → String :=
  fun b => if b = [7] then "xx" else if b = [5] then "aa" else "zz"

def wParse : Bytes → Option (List (String × AObj)) :=
  fun b => if b = [7] then some [("p", ⟨"aa", 1⟩)] else none

def wNet2 : String → Nat → FetchOutcome :=
  fun u _ => if u = "iu" then .resp 200 [7] else .resp 200 [5]

/-! ## Lemmas about the retry loop -/

theorem dlLoop_step_thrown (digest : Bytes → String) (checksum : String)
    (size : Nat) (net : Nat → FetchOutcome) (attempt rem : Nat)
    (le : Option String) (bf : Option Bytes) (msg : String)
    (hn : net attempt = .thrown msg) :
    dlLoop digest checksum size net attempt (rem + 1) le bf =
      .error (.fetchThrown msg) := by
  simp only [dlLoop, hn]

theorem dlLoop_step_good (digest : Bytes → String) (checksum : String)
    (size : Nat) (net : Nat → FetchOutcome) (attempt rem : Nat)
    (le : Option String) (bf : Option Bytes)
    (hg : goodResp digest checksum size (net attempt) = true) :
    dlLoop digest checksum size net attempt (rem + 1) le bf =
      .ok (none, some (bodyOf (net attempt))) := by
  cases hn : net attempt with
  | thrown msg => rw [hn] at hg; simp [goodResp] at hg
  | resp status body =>
    rw [hn] at hg
    simp only [goodResp, Bool.and_eq_true, beq_iff_eq] at hg
    simp only [dlLoop, hn, bodyOf]
    rw [if_pos hg.1.1, if_neg (fun h => h hg.1.2), if_neg (fun h => h hg.2)]

theorem dlLoop_step_retry (digest : Bytes → String) (checksum : String)
    (size : Nat) (net : Nat → FetchOutcome) (attempt rem : Nat)
    (le : Option String) (bf : Option Bytes)
    (hr : retryFail digest checksum size (net attempt) = true) :
    dlLoop digest checksum size net attempt (rem + 1) le bf =
      dlLoop digest checksum size net (attempt + 1) rem
        (failReason digest checksum size (net attempt))
        (retryBuf (net attempt) bf) := by
  cases hn : net attempt with
  | thrown msg => rw [hn] at hr; simp [retryFail, failReason] at hr
  | resp status body =>
    rw [hn] at hr
    simp only [dlLoop, hn, retryBuf, failReason]
    by_cases hok : respOk status = true
    · by_cases hsz : body.length ≠ size
      · simp only [if_pos hok, if_pos hsz]
      · by_cases hck : digest body ≠ checksum
        · simp only [if_pos hok, if_neg hsz, if_pos hck]
        · exfalso
          simp only [retryFail, failReason, if_pos hok, if_neg hsz, if_neg hck] at hr
          simp at hr
    · simp only [if_neg hok]

/-- Every fetch outcome is a rejection, an accepted response, or a retried
response. -/
theorem outcome_trichotomy (digest : Bytes → String) (checksum : String)
    (size : Nat) (o : FetchOutcome) :
    (∃ msg, o = .thrown msg) ∨ goodResp digest checksum size o = true ∨
      retryFail digest checksum size o = true := by
  cases o with
  | thrown msg => exact Or.inl ⟨msg, rfl⟩
  | resp status body =>
    by_cases hok : respOk status = true
    · by_cases hsz : body.length = size
      · by_cases hck : digest body = checksum
        · refine Or.inr (Or.inl ?_)
          simp [goodResp, hok, hsz, hck]
        · refine Or.inr (Or.inr ?_)
          simp [retryFail, failReason, if_pos hok, hsz, hck]
      · refine Or.inr (Or.inr ?_)
        simp [retryFail, failReason, if_pos hok, hsz]
    · refine Or.inr (Or.inr ?_)
      simp [retryFail, failReason, if_neg hok]

theorem dlLoop_break_verified (digest : Bytes → String) (checksum : String)
    (size : Nat) (net : Nat → FetchOutcome) :
    ∀ (rem attempt : Nat) (le : Option String) (bf : Option Bytes) (b : Bytes),
      dlLoop digest checksum size net attempt rem le bf = .ok (none, some b) →
      (le = none ∧ bf = some b) ∨ (b.length = size ∧ digest b = checksum) := by
  intro rem
  induction rem with
  | zero =>
    intro attempt le bf b h
    simp only [dlLoop, Except.ok.injEq, Prod.mk.injEq] at h
    exact Or.inl ⟨h.1, h.2⟩
  | succ rem ih =>
    intro attempt le bf b h
    rcases outcome_trichotomy digest checksum size (net attempt) with
      ⟨msg, hn⟩ | hg | hr
    · rw [dlLoop_step_thrown digest checksum size net attempt rem le bf msg hn] at h
      exact absurd h (by simp)
    · rw [dlLoop_step_good digest checksum size net attempt rem le bf hg] at h
      simp only [Except.ok.injEq, Prod.mk.injEq, Option.some.injEq] at h
      cases hn : net attempt with
      | thrown msg => rw [hn] at hg; simp [goodResp] at hg
      | resp status body =>
        rw [hn] at hg
        simp only [goodResp, Bool.and_eq_true, beq_iff_eq] at hg
        rw [hn] at h
        simp only [bodyOf] at h
        rw [← h.2]
        exact Or.inr ⟨hg.1.2, hg.2⟩
    · rw [dlLoop_step_retry digest checksum size net attempt rem le bf hr] at h
      rcases ih _ _ _ _ h with ⟨hle, _⟩ | hv
      · exfalso
        cases hn : net attempt with
        | thrown msg => rw [hn] at hr; simp [retryFail, failReason] at hr
        | resp status body =>
          rw [hn] at hr hle
          simp only [retryFail] at hr
          rw [Option.isSome_iff_exists] at hr
          obtain ⟨r, hrr⟩ := hr
          rw [hrr] at hle
          exact Option.noConfusion hle
      · exact Or.inr hv

theorem dlLoop_net_congr (digest : Bytes → String) (checksum : String)
    (size : Nat) (net net' : Nat → FetchOutcome) :
    ∀ (rem attempt : Nat) (le : Option String) (bf : Option Bytes),
      (∀ i, attempt ≤ i → i < attempt + rem → net i = net' i) →
      dlLoop digest checksum size net attempt rem le bf =
        dlLoop digest checksum size net' attempt rem le bf := by
  intro rem
  induction rem with
  | zero => intro attempt le bf _; simp only [dlLoop]
  | succ rem ih =>
    intro attempt le bf hagree
    have h0 : net attempt = net' attempt := hagree attempt (Nat.le_refl _) (by omega)
    have hrest : ∀ i, attempt + 1 ≤ i → i < (attempt + 1) + rem → net i = net' i :=
      fun i h1 h2 => hagree i (by omega) (by omega)
    simp only [dlLoop, h0]
    cases hn : net' attempt with
    | thrown msg => rfl
    | resp status body =>
      by_cases hok : respOk status = true
      · by_cases hsz : body.length ≠ size
        · simp only [if_pos hok, if_pos hsz]; exact ih _ _ _ hrest
        · by_cases hck : digest body ≠ checksum
          · simp only [if_pos hok, if_neg hsz, if_pos hck]; exact ih _ _ _ hrest
          · simp only [if_pos hok, if_neg hsz, if_neg hck]
      · simp only [if_neg hok]; exact ih _ _ _ hrest

theorem verifiedLocal_digest_congr (digest digest' : Bytes → String)
    (localContent : Option Bytes) (checksum : String) (size : Nat)
    (hd : ∀ x : Bytes, x.length = size → digest x = digest' x) :
    verifiedLocal digest localContent checksum size =
      verifiedLocal digest' localContent checksum size := by
  cases localContent with
  | none => rfl
  | some b =>
    simp only [verifiedLocal]
    by_cases hsz : b.length = size
    · rw [if_pos hsz, if_pos hsz, hd b hsz]
    · rw [if_neg hsz, if_neg hsz]

theorem dlLoop_digest_congr (digest digest' : Bytes → String) (checksum : String)
    (size : Nat) (net : Nat → FetchOutcome)
    (hd : ∀ x : Bytes, x.length = size → digest x = digest' x) :
    ∀ (rem attempt : Nat) (le : Option String) (bf : Option Bytes),
      dlLoop digest checksum size net attempt rem le bf =
        dlLoop digest' checksum size net attempt rem le bf := by
  intro rem
  induction rem with
  | zero => intro attempt le bf; simp only [dlLoop]
  | succ rem ih =>
    intro attempt le bf
    simp only [dlLoop]
    cases hn : net attempt with
    | thrown msg => rfl
    | resp status body =>
      dsimp only
      by_cases hok : respOk status = true
      · by_cases hsz : body.length ≠ size
        · simp only [if_pos hok, if_pos hsz]; exact ih _ _ _
        · push_neg at hsz
          have hsz' : ¬body.length ≠ size := fun h => h hsz
          simp only [if_pos hok, if_neg hsz', hd body hsz]
          by_cases hck : digest' body ≠ checksum
          · simp only [if_pos hck]; exact ih _ _ _
          · simp only [if_neg hck]
      · simp only [if_neg hok]; exact ih _ _ _

theorem dlLoop_succeed_at (digest : Bytes → String) (checksum : String)
    (size : Nat) (net : Nat → FetchOutcome) :
    ∀ (n attempt rem : Nat) (le : Option String) (bf : Option Bytes),
      n < rem →
      (∀ i, i < n → retryFail digest checksum size (net (attempt + i)) = true) →
      goodResp digest checksum size (net (attempt + n)) = true →
      dlLoop digest checksum size net attempt rem le bf =
        .ok (none, some (bodyOf (net (attempt + n)))) := by
  intro n
  induction n with
  | zero =>
    intro attempt rem le bf hlt _ hgood
    obtain ⟨rem', rfl⟩ : ∃ r, rem = r + 1 := ⟨rem - 1, by omega⟩
    rw [Nat.add_zero] at hgood ⊢
    exact dlLoop_step_good digest checksum size net attempt rem' le bf hgood
  | succ n ih =>
    intro attempt rem le bf hlt hfail hgood
    obtain ⟨rem', rfl⟩ : ∃ r, rem = r + 1 := ⟨rem - 1, by omega⟩
    have hf0 : retryFail digest checksum size (net attempt) = true := by
      have := hfail 0 (Nat.succ_pos n); rwa [Nat.add_zero] at this
    have hfail' : ∀ i, i < n →
        retryFail digest checksum size (net (attempt + 1 + i)) = true := by
      intro i hi
      have := hfail (i + 1) (by omega)
      rwa [show attempt + (i + 1) = attempt + 1 + i by omega] at this
    have hgood' : goodResp digest checksum size (net (attempt + 1 + n)) = true := by
      rwa [show attempt + (n + 1) = attempt + 1 + n by omega] at hgood
    rw [dlLoop_step_retry digest checksum size net attempt rem' le bf hf0,
      show attempt + (n + 1) = attempt + 1 + n by omega]
    exact ih (attempt + 1) rem' _ _ (by omega) hfail' hgood'

theorem dlLoop_exhaust (digest : Bytes → String) (checksum : String)
    (size : Nat) (net : Nat → FetchOutcome) :
    ∀ (rem' attempt : Nat) (le : Option String) (bf : Option Bytes),
      (∀ i, i ≤ rem' → retryFail digest checksum size (net (attempt + i)) = true) →
      ∃ bf', dlLoop digest checksum size net attempt (rem' + 1) le bf =
        .ok (failReason digest checksum size (net (attempt + rem')), bf') := by
  intro rem'
  induction rem' with
  | zero =>
    intro attempt le bf hfail
    have hf0 := hfail 0 (Nat.le_refl _)
    rw [Nat.add_zero] at hf0 ⊢
    rw [dlLoop_step_retry digest checksum size net attempt 0 le bf hf0]
    exact ⟨retryBuf (net attempt) bf, rfl⟩
  | succ rem' ih =>
    intro attempt le bf hfail
    have hf0 : retryFail digest checksum size (net attempt) = true := by
      have := hfail 0 (Nat.zero_le _); rwa [Nat.add_zero] at this
    have hfail' : ∀ i, i ≤ rem' →
        retryFail digest checksum size (net (attempt + 1 + i)) = true := by
      intro i hi
      have := hfail (i + 1) (by omega)
      rwa [show attempt + (i + 1) = attempt + 1 + i by omega] at this
    rw [dlLoop_step_retry digest checksum size net attempt (rem' + 1) le bf hf0,
      show attempt + (rem' + 1) = attempt + 1 + rem' by omega]
    exact ih (attempt + 1) _ _ hfail'

theorem dlLoop_thrown_at (digest : Bytes → String) (checksum : String)
    (size : Nat) (net : Nat → FetchOutcome) (msg : String) :
    ∀ (k attempt rem : Nat) (le : Option String) (bf : Option Bytes),
      k < rem →
      (∀ i, i < k → retryFail digest checksum size (net (attempt + i)) = true) →
      net (attempt + k) = .thrown msg →
      dlLoop digest checksum size net attempt rem le bf =
        .error (.fetchThrown msg) := by
  intro k
  induction k with
  | zero =>
    intro attempt rem le bf hlt _ hthrown
    obtain ⟨rem', rfl⟩ : ∃ r, rem = r + 1 := ⟨rem - 1, by omega⟩
    rw [Nat.add_zero] at hthrown
    exact dlLoop_step_thrown digest checksum size net attempt rem' le bf msg hthrown
  | succ k ih =>
    intro attempt rem le bf hlt hfail hthrown
    obtain ⟨rem', rfl⟩ : ∃ r, rem = r + 1 := ⟨rem - 1, by omega⟩
    have hf0 : retryFail digest checksum size (net attempt) = true := by
      have := hfail 0 (Nat.succ_pos k); rwa [Nat.add_zero] at this
    have hfail' : ∀ i, i < k →
        retryFail digest checksum size (net (attempt + 1 + i)) = true := by
      intro i hi
      have := hfail (i + 1) (by omega)
      rwa [show attempt + (i + 1) = attempt + 1 + i by omega] at this
    have hthrown' : net (attempt + 1 + k) = .thrown msg := by
      rwa [show attempt + (k + 1) = attempt + 1 + k by omega] at hthrown
    rw [dlLoop_step_retry digest checksum size net attempt rem' le bf hf0]
    exact ih (attempt + 1) rem' _ _ (by omega) hfail' hthrown'

/-! ## Lemmas about `downloadIfChanged` -/

theorem downloadIfChanged_reuse (digest : Bytes → String)
    (localContent : Option Bytes) (url checksum : String) (size : Nat)
    (net : Nat → FetchOutcome)
    (h : verifiedLocal digest localContent checksum size = true) :
    downloadIfChanged digest localContent url checksum size net = .ok (false, none) := by
  simp only [downloadIfChanged, h, if_true]

theorem downloadIfChanged_ok_inversion (digest : Bytes → String)
    (localContent : Option Bytes) (url checksum : String) (size : Nat)
    (net : Nat → FetchOutcome) (d : Bool) (w : Option Bytes)
    (h : downloadIfChanged digest localContent url checksum size net = .ok (d, w)) :
    (d = false ∧ w = none ∧ verifiedLocal digest localContent checksum size = true) ∨
    (d = true ∧ ∃ b, w = some b ∧ b.length = size ∧ digest b = checksum) := by
  by_cases hv : verifiedLocal digest localContent checksum size = true
  · rw [downloadIfChanged_reuse digest localContent url checksum size net hv] at h
    simp only [Except.ok.injEq, Prod.mk.injEq] at h
    exact Or.inl ⟨h.1.symm, h.2.symm, hv⟩
  · simp only [downloadIfChanged, if_neg hv] at h
    cases hl : dlLoop digest checksum size net 0 maxDownloadRetries none none with
    | error e => rw [hl] at h; exact absurd h (by simp)
    | ok pair =>
      obtain ⟨le, bf⟩ := pair
      rw [hl] at h
      cases le with
      | some r => exact absurd h (by simp)
      | none =>
        cases bf with
        | none => exact absurd h (by simp)
        | some b =>
          simp only [Except.ok.injEq, Prod.mk.injEq] at h
          rcases dlLoop_break_verified digest checksum size net _ _ _ _ _ hl with
            ⟨_, hbf⟩ | hver
          · exact Option.noConfusion hbf
          · exact Or.inr ⟨h.1.symm, b, h.2.symm, hver⟩

theorem downloadIfChanged_net_congr (digest : Bytes → String)
    (localContent : Option Bytes) (url checksum : String) (size : Nat)
    (net net' : Nat → FetchOutcome)
    (hagree : ∀ i, i < maxDownloadRetries → net i = net' i) :
    downloadIfChanged digest localContent url checksum size net =
      downloadIfChanged digest localContent url checksum size net' := by
  simp only [downloadIfChanged]
  rw [dlLoop_net_congr digest checksum size net net' maxDownloadRetries 0 none none
    (fun i _ h2 => hagree i (by omega))]

theorem downloadIfChanged_digest_congr (digest digest' : Bytes → String)
    (localContent : Option Bytes) (url checksum : String) (size : Nat)
    (net : Nat → FetchOutcome)
    (hd : ∀ x : Bytes, x.length = size → digest x = digest' x) :
    downloadIfChanged digest localContent url checksum size net =
      downloadIfChanged digest' localContent url checksum size net := by
  simp only [downloadIfChanged,
    verifiedLocal_digest_congr digest digest' localContent checksum size hd,
    dlLoop_digest_congr digest digest' checksum size net hd]

theorem downloadIfChanged_succeeds (digest : Bytes → String)
    (localContent : Option Bytes) (url checksum : String) (size : Nat)
    (net : Nat → FetchOutcome) (n : Nat)
    (hmiss : verifiedLocal digest localContent checksum size = false)
    (hn : n < maxDownloadRetries)
    (hfail : ∀ i, i < n → retryFail digest checksum size (net i) = true)
    (hgood : goodResp digest checksum size (net n) = true) :
    downloadIfChanged digest localContent url checksum size net =
      .ok (true, some (bodyOf (net n))) := by
  simp only [downloadIfChanged, hmiss, Bool.false_eq_true, if_false]
  rw [dlLoop_succeed_at digest checksum size net n 0 maxDownloadRetries none none hn
    (fun i hi => by rw [Nat.zero_add]; exact hfail i hi)
    (by rwa [Nat.zero_add])]
  rw [Nat.zero_add]

theorem downloadIfChanged_exhaust (digest : Bytes → String)
    (localContent : Option Bytes) (url checksum : String) (size : Nat)
    (net : Nat → FetchOutcome) (r : String)
    (hmiss : verifiedLocal digest localContent checksum size = false)
    (hfail : ∀ i, i < maxDownloadRetries → retryFail digest checksum size (net i) = true)
    (hlast : failReason digest checksum size (net (maxDownloadRetries - 1)) = some r) :
    downloadIfChanged digest localContent url checksum size net =
      .error (.downloadFailed url r) := by
  simp only [downloadIfChanged, hmiss, Bool.false_eq_true, if_false]
  obtain ⟨bf', hloop⟩ := dlLoop_exhaust digest checksum size net 4 0 none none
    (fun i hi => by
      rw [Nat.zero_add]
      exact hfail i (by rw [show maxDownloadRetries = 5 from rfl]; omega))
  rw [show maxDownloadRetries = 4 + 1 from rfl, hloop, Nat.zero_add]
  have : failReason digest checksum size (net 4) = some r := hlast
  rw [this]

theorem downloadIfChanged_thrown (digest : Bytes → String)
    (localContent : Option Bytes) (url checksum : String) (size : Nat)
    (net : Nat → FetchOutcome) (k : Nat) (msg : String)
    (hmiss : verifiedLocal digest localContent checksum size = false)
    (hk : k < maxDownloadRetries)
    (hfail : ∀ i, i < k → retryFail digest checksum size (net i) = true)
    (hthrown : net k = .thrown msg) :
    downloadIfChanged digest localContent url checksum size net =
      .error (.fetchThrown msg) := by
  simp only [downloadIfChanged, hmiss, Bool.false_eq_true, if_false]
  rw [dlLoop_thrown_at digest checksum size net msg k 0 maxDownloadRetries none none hk
    (fun i hi => by rw [Nat.zero_add]; exact hfail i hi)
    (by rwa [Nat.zero_add])]

/-! ## Lemmas about batches -/

theorem runChunk_go (digest : Bytes → String) (net : String → Nat → FetchOutcome)
    (assetsFolder : String) :
    ∀ (chunk : List AObj) (fs : FS) (acc : List (Except DlError Bool)),
      chunk.foldl
        (fun st o =>
          let r := objStep digest net assetsFolder st.1 o
          (r.1, st.2 ++ [r.2]))
        (fs, acc) =
      ((runChunk digest net assetsFolder fs chunk).1,
        acc ++ (runChunk digest net assetsFolder fs chunk).2) := by
  intro chunk
  induction chunk with
  | nil => intro fs acc; simp [runChunk]
  | cons o chunk ih =>
    intro fs acc
    simp only [runChunk, List.foldl_cons, List.nil_append]
    rw [ih _ (acc ++ [(objStep digest net assetsFolder fs o).2]),
      ih _ [(objStep digest net assetsFolder fs o).2]]
    simp [List.append_assoc]

theorem runChunk_cons (digest : Bytes → String) (net : String → Nat → FetchOutcome)
    (assetsFolder : String) (fs : FS) (o : AObj) (chunk : List AObj) :
    runChunk digest net assetsFolder fs (o :: chunk) =
      ((runChunk digest net assetsFolder (objStep digest net assetsFolder fs o).1 chunk).1,
        (objStep digest net assetsFolder fs o).2 ::
          (runChunk digest net assetsFolder (objStep digest net assetsFolder fs o).1 chunk).2) := by
  simp only [runChunk, List.foldl_cons, List.nil_append]
  rw [show ((objStep digest net assetsFolder fs o).1,
      [(objStep digest net assetsFolder fs o).2]) =
    ((objStep digest net assetsFolder fs o).1,
      [] ++ [(objStep digest net assetsFolder fs o).2]) by simp]
  rw [runChunk_go digest net assetsFolder chunk (objStep digest net assetsFolder fs o).1
    ([] ++ [(objStep digest net assetsFolder fs o).2])]
  simp [runChunk]

theorem verifiedLocal_of_verifiedFile (digest : Bytes → String) (fs : FS)
    (p : String) (checksum : String) (size : Nat)
    (h : verifiedFile digest fs p checksum size) :
    verifiedLocal digest (fsGet fs p) checksum size = true := by
  obtain ⟨b, hb, hlen, hdig⟩ := h
  rw [hb]
  simp [verifiedLocal, if_pos hlen, hdig]

theorem chunksOfGo_fuel {α : Type} (n : Nat) (hn : n ≠ 0) :
    ∀ (fuel fuel' : Nat) (l : List α), l.length ≤ fuel → l.length ≤ fuel' →
      chunksOfGo n fuel l = chunksOfGo n fuel' l := by
  intro fuel
  induction fuel with
  | zero =>
    intro fuel' l hf hf'
    have hl : l = [] := List.length_eq_zero.mp (Nat.le_zero.mp hf)
    subst hl
    cases fuel' with
    | zero => rfl
    | succ f => simp [chunksOfGo]
  | succ fuel ih =>
    intro fuel' l hf hf'
    cases fuel' with
    | zero =>
      have hl : l = [] := List.length_eq_zero.mp (Nat.le_zero.mp hf')
      subst hl
      simp [chunksOfGo]
    | succ f =>
      simp only [chunksOfGo]
      by_cases hc : (l.isEmpty || n == 0) = true
      · rw [if_pos hc, if_pos hc]
      · rw [if_neg hc, if_neg hc]
        simp only [Bool.or_eq_true, List.isEmpty_iff, beq_iff_eq] at hc
        push_neg at hc
        have hlen : 0 < l.length := List.length_pos.mpr hc.1
        have hd : (l.drop n).length ≤ fuel := by
          simp only [List.length_drop]; omega
        have hd' : (l.drop n).length ≤ f := by
          simp only [List.length_drop]; omega
        rw [ih f (l.drop n) hd hd']

theorem chunksOf_cons_eq {α : Type} (n : Nat) (l : List α) (hl : l ≠ []) (hn : n ≠ 0) :
    chunksOf n l = l.take n :: chunksOf n (l.drop n) := by
  obtain ⟨m, hm⟩ : ∃ m, l.length = m + 1 := by
    have := List.length_pos.mpr hl
    exact ⟨l.length - 1, by omega⟩
  rw [chunksOf, hm]
  simp only [chunksOfGo]
  rw [if_neg (by simp [hl, hn])]
  rw [chunksOf]
  rw [chunksOfGo_fuel n hn m (l.drop n).length (l.drop n)
    (by simp only [List.length_drop]; omega) (Nat.le_refl _)]

/-! ## Lemmas about `objInsert` and deduplication -/

theorem objAny_iff {α : Type} (m : List (String × α)) (k : String) :
    m.any (fun kv => kv.1 == k) = true ↔ k ∈ m.map Prod.fst := by
  simp [List.any_eq_true, List.mem_map, beq_iff_eq]

theorem objInsert_keys {α : Type} (m : List (String × α)) (k : String) (v : α) :
    (objInsert m k v).map Prod.fst =
      if m.any (fun kv => kv.1 == k) = true then m.map Prod.fst
      else m.map Prod.fst ++ [k] := by
  simp only [objInsert]
  by_cases hk : m.any (fun kv => kv.1 == k) = true
  · rw [if_pos hk, if_pos hk, List.map_map]
    apply List.map_congr_left
    intro kv _
    by_cases h : kv.1 = k
    · simp [Function.comp, if_pos h, h]
    · simp [Function.comp, if_neg h]
  · rw [if_neg hk, if_neg hk, List.map_append]
    rfl

theorem objInsert_key_mem {α : Type} (m : List (String × α)) (k : String) (v : α)
    (k' : String) :
    k' ∈ (objInsert m k v).map Prod.fst ↔ k' ∈ m.map Prod.fst ∨ k' = k := by
  rw [objInsert_keys]
  by_cases hk : m.any (fun kv => kv.1 == k) = true
  · rw [if_pos hk]
    constructor
    · exact Or.inl
    · rintro (h | rfl)
      · exact h
      · exact (objAny_iff m k').mp hk
  · rw [if_neg hk]
    simp [List.mem_append]

theorem objInsert_keys_nodup {α : Type} (m : List (String × α)) (k : String) (v : α)
    (h : (m.map Prod.fst).Nodup) : ((objInsert m k v).map Prod.fst).Nodup := by
  rw [objInsert_keys]
  by_cases hk : m.any (fun kv => kv.1 == k) = true
  · rwa [if_pos hk]
  · rw [if_neg hk]
    rw [List.nodup_append]
    refine ⟨h, List.nodup_singleton k, ?_⟩
    intro a ha hb
    simp only [List.mem_singleton] at hb
    subst hb
    exact hk ((objAny_iff m a).mpr ha)

theorem objInsert_forall {α : Type} (P : String × α → Prop)
    (m : List (String × α)) (k : String) (v : α)
    (hm : ∀ kv ∈ m, P kv) (hv : P (k, v)) : ∀ kv ∈ objInsert m k v, P kv := by
  intro kv hkv
  simp only [objInsert] at hkv
  by_cases hk : m.any (fun kv => kv.1 == k) = true
  · rw [if_pos hk] at hkv
    simp only [List.mem_map] at hkv
    obtain ⟨kv', hkv', heq⟩ := hkv
    by_cases hsel : (kv'.1 == k) = true
    · rw [if_pos hsel] at heq
      exact heq ▸ hv
    · rw [if_neg hsel] at heq
      exact heq ▸ hm kv' hkv'
  · rw [if_neg hk] at hkv
    rcases List.mem_append.mp hkv with h | h
    · exact hm kv h
    · simp only [List.mem_singleton] at h
      exact h ▸ hv

/-- The fold of `dedupObjects`: key-set facts and value facts. -/
theorem dedupFold_spec (l : List AObj) :
    ∀ m : List (String × AObj),
      (((m.map Prod.fst).Nodup →
        ((l.foldl (fun m o => objInsert m o.hash o) m).map Prod.fst).Nodup)) ∧
      (∀ k, k ∈ (l.foldl (fun m o => objInsert m o.hash o) m).map Prod.fst ↔
        k ∈ m.map Prod.fst ∨ k ∈ l.map AObj.hash) ∧
      (∀ kv ∈ l.foldl (fun m o => objInsert m o.hash o) m,
        kv ∈ m ∨ (kv.2 ∈ l ∧ kv.2.hash = kv.1)) := by
  induction l with
  | nil =>
    intro m
    refine ⟨fun h => h, fun k => by simp, fun kv hkv => Or.inl hkv⟩
  | cons o l ih =>
    intro m
    simp only [List.foldl_cons]
    refine ⟨?_, ?_, ?_⟩
    · intro h
      exact (ih (objInsert m o.hash o)).1 (objInsert_keys_nodup m o.hash o h)
    · intro k
      rw [(ih (objInsert m o.hash o)).2.1 k, objInsert_key_mem]
      simp only [List.map_cons, List.mem_cons]
      tauto
    · intro kv hkv
      rcases (ih (objInsert m o.hash o)).2.2 kv hkv with h | h
      · rcases objInsert_forall (fun kv => kv ∈ m ∨ (kv.2 = o ∧ kv.2.hash = kv.1))
          m o.hash o (fun kv h => Or.inl h) (Or.inr ⟨rfl, rfl⟩) kv h with h' | h'
        · exact Or.inl h'
        · exact Or.inr ⟨h'.1 ▸ List.mem_cons_self o l, h'.2⟩
      · exact Or.inr ⟨List.mem_cons_of_mem o h.1, h.2⟩

theorem dedupObjects_hashes (l : List AObj) :
    (dedupObjects l).map AObj.hash =
      (l.foldl (fun m o => objInsert m o.hash o) []).map Prod.fst := by
  simp only [dedupObjects, objValues, List.map_map]
  apply List.map_congr_left
  intro kv hkv
  rcases (dedupFold_spec l []).2.2 kv hkv with h | h
  · exact absurd h (List.not_mem_nil kv)
  · exact h.2

theorem dedupObjects_nodup (l : List AObj) : ((dedupObjects l).map AObj.hash).Nodup := by
  rw [dedupObjects_hashes]
  exact (dedupFold_spec l []).1 List.nodup_nil

theorem dedupObjects_mem_hash (l : List AObj) (k : String) :
    k ∈ (dedupObjects l).map AObj.hash ↔ k ∈ l.map AObj.hash := by
  rw [dedupObjects_hashes, (dedupFold_spec l []).2.1 k]
  simp

theorem dedupObjects_subset (l : List AObj) : ∀ o ∈ dedupObjects l, o ∈ l := by
  intro o ho
  simp only [dedupObjects, objValues, List.mem_map] at ho
  obtain ⟨kv, hkv, rfl⟩ := ho
  rcases (dedupFold_spec l []).2.2 kv hkv with h | h
  · exact absurd h (List.not_mem_nil kv)
  · exact h.1

/-! ## Lemmas about chunking -/

theorem chunksOf_flatten {α : Type} (n : Nat) (hn : n ≠ 0) (l : List α) :
    (chunksOf n l).flatten = l := by
  by_cases hl : l = []
  · subst hl
    simp [chunksOf, chunksOfGo]
  · rw [chunksOf_cons_eq n l hl hn, List.flatten_cons,
      chunksOf_flatten n hn (l.drop n), List.take_append_drop]
termination_by l.length
decreasing_by
  simp only [List.length_drop]
  have := List.length_pos.mpr hl
  omega

theorem chunksOf_mem_facts {α : Type} (n : Nat) (hn : n ≠ 0) (l c : List α)
    (hc : c ∈ chunksOf n l) : c.length ≤ n ∧ c ≠ [] := by
  by_cases hl : l = []
  · subst hl
    simp [chunksOf, chunksOfGo] at hc
  · rw [chunksOf_cons_eq n l hl hn] at hc
    rcases List.mem_cons.mp hc with rfl | hc'
    · refine ⟨by simp [List.length_take], ?_⟩
      intro h
      rcases List.take_eq_nil_iff.mp h with h' | h'
      · exact hn h'
      · exact hl h'
    · exact chunksOf_mem_facts n hn (l.drop n) c hc'
termination_by l.length
decreasing_by
  simp only [List.length_drop]
  have := List.length_pos.mpr hl
  omega

/-! ## Lemmas about `getAssetIndices` -/

theorem gaiGo_missing (manifest : List VersionEntry)
    (metaFetch : String → Except String AssetIndexDescr)
    (hurl : ∀ e ∈ manifest, e.url ≠ "")
    (hmeta : ∀ u, ∃ d, metaFetch u = .ok d) :
    ∀ (versions : List String) (acc : List (String × AssetIndexDescr)),
      (∃ v ∈ versions, ∀ e ∈ manifest, e.id ≠ v) →
      ∃ w, (w ∈ versions ∧ ∀ e ∈ manifest, e.id ≠ w) ∧
        getAssetIndicesGo manifest metaFetch acc versions =
          .error (.versionNotFound w) := by
  intro versions
  induction versions with
  | nil =>
    rintro acc ⟨v, hv, _⟩
    exact absurd hv (List.not_mem_nil v)
  | cons v vs ih =>
    rintro acc ⟨w0, hw0, hmiss⟩
    cases hf : manifest.find? (fun e => e.id == v) with
    | none =>
      refine ⟨v, ⟨List.mem_cons_self v vs, ?_⟩, ?_⟩
      · intro e he
        have := List.find?_eq_none.mp hf e he
        simpa using this
      · simp [getAssetIndicesGo, hf]
    | some e =>
      have hmem : e ∈ manifest := List.mem_of_find?_eq_some hf
      have hid : e.id = v := by simpa using List.find?_some hf
      have hw0' : w0 ∈ vs := by
        rcases List.mem_cons.mp hw0 with rfl | h
        · exact absurd hid (hmiss e hmem)
        · exact h
      obtain ⟨d, hd⟩ := hmeta e.url
      obtain ⟨w, hw, hgo⟩ := ih (objInsert acc d.id d) ⟨w0, hw0', hmiss⟩
      refine ⟨w, ⟨List.mem_cons_of_mem v hw.1, hw.2⟩, ?_⟩
      simp only [getAssetIndicesGo, hf, Option.map_some']
      rw [if_neg (hurl e hmem), hd]
      exact hgo

theorem gaiGo_ok_spec (manifest : List VersionEntry)
    (metaFetch : String → Except String AssetIndexDescr) :
    ∀ (versions : List String) (acc m : List (String × AssetIndexDescr)),
      getAssetIndicesGo manifest metaFetch acc versions = .ok m →
      (acc.map Prod.fst).Nodup → (∀ kv ∈ acc, kv.1 = kv.2.id) →
      (m.map Prod.fst).Nodup ∧ ∀ kv ∈ m, kv.1 = kv.2.id := by
  intro versions
  induction versions with
  | nil =>
    intro acc m h hnd hprop
    simp only [getAssetIndicesGo, Except.ok.injEq] at h
    subst h
    exact ⟨hnd, hprop⟩
  | cons v vs ih =>
    intro acc m h hnd hprop
    cases hf : manifest.find? (fun e => e.id == v) with
    | none => simp [getAssetIndicesGo, hf] at h
    | some e =>
      simp only [getAssetIndicesGo, hf, Option.map_some'] at h
      by_cases hurl : e.url = ""
      · rw [if_pos hurl] at h
        exact absurd h (by simp)
      · rw [if_neg hurl] at h
        cases hm : metaFetch e.url with
        | error msg => rw [hm] at h; exact absurd h (by simp)
        | ok d =>
          rw [hm] at h
          exact ih (objInsert acc d.id d) m h
            (objInsert_keys_nodup acc d.id d hnd)
            (objInsert_forall (fun kv => kv.1 = kv.2.id) acc d.id d hprop rfl)

/-! ## Lemmas towards idempotence -/

theorem fsGet_set (fs : FS) (p : String) (b : Bytes) (q : String) :
    fsGet (fsSet fs p b) q = if q = p then some b else fsGet fs q := by
  simp only [fsSet, fsGet, List.find?]
  by_cases h : q = p
  · subst h
    simp
  · have : (p == q) = false := by simpa using fun he => h he.symm
    rw [this, if_neg h]

theorem verifiedFile_of_verifiedLocal (digest : Bytes → String) (fs : FS)
    (p checksum : String) (size : Nat)
    (h : verifiedLocal digest (fsGet fs p) checksum size = true) :
    verifiedFile digest fs p checksum size := by
  cases hg : fsGet fs p with
  | none => rw [hg] at h; simp [verifiedLocal] at h
  | some b =>
    rw [hg] at h
    simp only [verifiedLocal] at h
    by_cases hsz : b.length = size
    · rw [if_pos hsz] at h
      exact ⟨b, hg, hsz, by simpa using h⟩
    · rw [if_neg hsz] at h
      exact absurd h (by simp)

theorem verifiedFile_set_other (digest : Bytes → String) (fs : FS)
    (p : String) (b : Bytes) (q checksum : String) (size : Nat) (hq : q ≠ p)
    (h : verifiedFile digest fs q checksum size) :
    verifiedFile digest (fsSet fs p b) q checksum size := by
  obtain ⟨c, hc, hlen, hdig⟩ := h
  exact ⟨c, by rw [fsGet_set, if_neg hq]; exact hc, hlen, hdig⟩

theorem firstErr_cons_none {α : Type} (r : Except DlError α)
    (l : List (Except DlError α)) :
    firstErr (r :: l) = none ↔ (∃ d, r = .ok d) ∧ firstErr l = none := by
  cases r with
  | error e => simp [firstErr]
  | ok d => simp [firstErr]

theorem firstErr_map_ok {α β : Type} (l : List α) (d : β)
    (f : α → Except DlError β) (hf : ∀ x, f x = .ok d) :
    firstErr (l.map f) = none := by
  induction l with
  | nil => rfl
  | cons x l ih => simp [firstErr, hf x, ih]

/-- `indexes/` and `objects/` paths never coincide. -/
theorem indexPath_ne_objectPath (assetsFolder id hash : String) :
    indexPath assetsFolder id ≠ objectPath assetsFolder hash := by
  intro he
  have hd := congrArg String.data he
  simp only [indexPath, objectPath, pjoin, hashPre, String.data_append,
    List.append_assoc] at hd
  have h1 := List.append_cancel_left hd
  have h2 := List.append_cancel_left h1
  simp only [List.cons_append] at h2
  injection h2 with hc _
  exact absurd hc (by decide)

/-- Distinct asset-index ids store their index files at distinct paths. -/
theorem indexPath_inj (assetsFolder id1 id2 : String)
    (h : indexPath assetsFolder id1 = indexPath assetsFolder id2) : id1 = id2 := by
  have hd := congrArg String.data h
  simp only [indexPath, pjoin, String.data_append, List.append_assoc] at hd
  have h1 := List.append_cancel_left hd
  have h2 := List.append_cancel_left h1
  have h3 := List.append_cancel_left h2
  have h4 := List.append_cancel_left h3
  have h5 := List.append_cancel_right h4
  cases id1
  cases id2
  exact congrArg String.mk (by simpa using h5)

/-! ### A settled filesystem synchronizes as a no-op -/

theorem objStep_settled (digest : Bytes → String) (net : String → Nat → FetchOutcome)
    (assetsFolder : String) (fs : FS) (o : AObj)
    (h : verifiedFile digest fs (objectPath assetsFolder o.hash) o.hash o.size) :
    objStep digest net assetsFolder fs o = (fs, .ok false) := by
  simp only [objStep]
  rw [downloadIfChanged_reuse digest _ _ _ _ _
    (verifiedLocal_of_verifiedFile digest fs _ o.hash o.size h)]

theorem runChunk_settled (digest : Bytes → String) (net : String → Nat → FetchOutcome)
    (assetsFolder : String) :
    ∀ (chunk : List AObj) (fs : FS),
      (∀ o ∈ chunk, verifiedFile digest fs (objectPath assetsFolder o.hash) o.hash o.size) →
      runChunk digest net assetsFolder fs chunk =
        (fs, chunk.map (fun _ => .ok false)) := by
  intro chunk
  induction chunk with
  | nil => intro fs _; rfl
  | cons o chunk ih =>
    intro fs h
    rw [runChunk_cons, objStep_settled digest net assetsFolder fs o
      (h o (List.mem_cons_self o chunk))]
    rw [ih fs (fun o' ho' => h o' (List.mem_cons_of_mem o ho'))]
    rfl

theorem countOkTrue_map_false {α : Type} (l : List α) :
    (l.map (fun _ => (Except.ok false : Except DlError Bool))).countP
      (fun x => match x with | .ok true => true | _ => false) = 0 := by
  induction l with
  | nil => rfl
  | cons x l ih => simpa [List.countP_cons] using ih

theorem runChunks_settled (digest : Bytes → String) (net : String → Nat → FetchOutcome)
    (assetsFolder : String) :
    ∀ (chunks : List (List AObj)) (fs : FS) (count : Nat),
      (∀ c ∈ chunks, ∀ o ∈ c,
        verifiedFile digest fs (objectPath assetsFolder o.hash) o.hash o.size) →
      runChunks digest net assetsFolder chunks fs count = .ok (fs, count) := by
  intro chunks
  induction chunks with
  | nil => intro fs count _; rfl
  | cons c chunks ih =>
    intro fs count h
    simp only [runChunks]
    rw [runChunk_settled digest net assetsFolder c fs (h c (List.mem_cons_self c chunks))]
    rw [show firstErr (c.map (fun _ => (Except.ok false : Except DlError Bool))) = none from
      firstErr_map_ok c false _ (fun _ => rfl)]
    rw [countOkTrue_map_false c, Nat.add_zero]
    exact ih fs count (fun c' hc' => h c' (List.mem_cons_of_mem c hc'))

theorem mem_of_mem_chunksOf {α : Type} (n : Nat) (hn : n ≠ 0) (l c : List α)
    (hc : c ∈ chunksOf n l) (o : α) (ho : o ∈ c) : o ∈ l := by
  rw [← chunksOf_flatten n hn l]
  exact List.mem_flatten.mpr ⟨c, hc, ho⟩

theorem processIndex_settled (digest : Bytes → String)
    (parseIndex : Bytes → Option (List (String × AObj)))
    (net : String → Nat → FetchOutcome) (assetsFolder : String) (fs : FS)
    (d : AssetIndexDescr)
    (h : IndexSettled digest parseIndex assetsFolder fs d) :
    processIndex digest parseIndex net assetsFolder fs d = .ok (fs, 0) := by
  obtain ⟨b, entries, hb, hlen, hdig, hparse, hobjs⟩ := h
  simp only [processIndex]
  rw [downloadIfChanged_reuse digest _ d.url d.sha1 d.size _
    (verifiedLocal_of_verifiedFile digest fs _ d.sha1 d.size ⟨b, hb, hlen, hdig⟩)]
  dsimp only
  rw [hb]
  dsimp only
  rw [hparse]
  dsimp only
  exact runChunks_settled digest net assetsFolder _ fs 0
    (fun c hc o ho => hobjs o
      (mem_of_mem_chunksOf maxConcurrency (by decide) _ c hc o ho))

theorem processIndices_settled (digest : Bytes → String)
    (parseIndex : Bytes → Option (List (String × AObj)))
    (net : String → Nat → FetchOutcome) (assetsFolder : String) :
    ∀ (list : List AssetIndexDescr) (fs : FS) (counts : List Nat),
      (∀ d ∈ list, IndexSettled digest parseIndex assetsFolder fs d) →
      processIndices digest parseIndex net assetsFolder list fs counts =
        .ok (fs, counts ++ list.map (fun _ => 0)) := by
  intro list
  induction list with
  | nil => intro fs counts _; simp [processIndices]
  | cons d list ih =>
    intro fs counts h
    simp only [processIndices]
    rw [processIndex_settled digest parseIndex net assetsFolder fs d
      (h d (List.mem_cons_self d list))]
    dsimp only
    rw [ih fs (counts ++ [0]) (fun d' hd' => h d' (List.mem_cons_of_mem d hd'))]
    simp

/-! ### A successful run establishes a settled filesystem -/

theorem objStep_frame (digest : Bytes → String) (net : String → Nat → FetchOutcome)
    (assetsFolder : String) (fs : FS) (o : AObj) (q : String)
    (hq : q ≠ objectPath assetsFolder o.hash) :
    fsGet (objStep digest net assetsFolder fs o).1 q = fsGet fs q := by
  simp only [objStep]
  cases hdl : downloadIfChanged digest (fsGet fs (objectPath assetsFolder o.hash))
      (objectUrl o.hash) o.hash o.size (net (objectUrl o.hash)) with
  | error e => rfl
  | ok pair =>
    obtain ⟨d0, w⟩ := pair
    cases w with
    | none => rfl
    | some b =>
      dsimp only
      rw [fsGet_set, if_neg hq]

theorem objStep_pres (digest : Bytes → String) (net : String → Nat → FetchOutcome)
    (assetsFolder : String) (fs : FS) (o : AObj) (q checksum : String) (size : Nat)
    (hv : verifiedFile digest fs q checksum size)
    (hspec : q = objectPath assetsFolder o.hash → checksum = o.hash ∧ size = o.size) :
    verifiedFile digest (objStep digest net assetsFolder fs o).1 q checksum size := by
  simp only [objStep]
  cases hdl : downloadIfChanged digest (fsGet fs (objectPath assetsFolder o.hash))
      (objectUrl o.hash) o.hash o.size (net (objectUrl o.hash)) with
  | error e => exact hv
  | ok pair =>
    obtain ⟨d0, w⟩ := pair
    cases w with
    | none => exact hv
    | some b =>
      dsimp only
      rcases downloadIfChanged_ok_inversion digest _ _ _ _ _ d0 (some b) hdl with
        ⟨_, hw, _⟩ | ⟨_, b', hw, hlen, hdig⟩
      · exact Option.noConfusion hw
      · obtain rfl : b = b' := Option.some.inj hw
        by_cases hq : q = objectPath assetsFolder o.hash
        · obtain ⟨rfl, rfl⟩ := hspec hq
          exact ⟨b, by rw [fsGet_set, if_pos hq], hlen, hdig⟩
        · exact verifiedFile_set_other digest fs _ b q checksum size hq hv

theorem objStep_post (digest : Bytes → String) (net : String → Nat → FetchOutcome)
    (assetsFolder : String) (fs : FS) (o : AObj) (dres : Bool)
    (h : (objStep digest net assetsFolder fs o).2 = .ok dres) :
    verifiedFile digest (objStep digest net assetsFolder fs o).1
      (objectPath assetsFolder o.hash) o.hash o.size := by
  simp only [objStep] at h ⊢
  cases hdl : downloadIfChanged digest (fsGet fs (objectPath assetsFolder o.hash))
      (objectUrl o.hash) o.hash o.size (net (objectUrl o.hash)) with
  | error e => rw [hdl] at h; exact absurd h (by simp)
  | ok pair =>
    obtain ⟨d0, w⟩ := pair
    rcases downloadIfChanged_ok_inversion digest _ _ _ _ _ d0 w hdl with
      ⟨_, hw, hvl⟩ | ⟨_, b, hw, hlen, hdig⟩
    · subst hw
      exact verifiedFile_of_verifiedLocal digest fs _ o.hash o.size hvl
    · subst hw
      dsimp only
      exact ⟨b, by rw [fsGet_set, if_pos rfl], hlen, hdig⟩

theorem runChunk_frame (digest : Bytes → String) (net : String → Nat → FetchOutcome)
    (assetsFolder : String) :
    ∀ (chunk : List AObj) (fs : FS) (q : String),
      (∀ o ∈ chunk, q ≠ objectPath assetsFolder o.hash) →
      fsGet (runChunk digest net assetsFolder fs chunk).1 q = fsGet fs q := by
  intro chunk
  induction chunk with
  | nil => intro fs q _; rfl
  | cons o chunk ih =>
    intro fs q hq
    rw [runChunk_cons]
    dsimp only
    rw [ih (objStep digest net assetsFolder fs o).1 q
      (fun o' ho' => hq o' (List.mem_cons_of_mem o ho'))]
    exact objStep_frame digest net assetsFolder fs o q (hq o (List.mem_cons_self o chunk))

theorem runChunk_pres (digest : Bytes → String) (net : String → Nat → FetchOutcome)
    (assetsFolder : String) :
    ∀ (chunk : List AObj) (fs : FS) (q checksum : String) (size : Nat),
      verifiedFile digest fs q checksum size →
      (∀ o ∈ chunk, q = objectPath assetsFolder o.hash →
        checksum = o.hash ∧ size = o.size) →
      verifiedFile digest (runChunk digest net assetsFolder fs chunk).1 q checksum size := by
  intro chunk
  induction chunk with
  | nil => intro fs q checksum size hv _; exact hv
  | cons o chunk ih =>
    intro fs q checksum size hv hspec
    rw [runChunk_cons]
    dsimp only
    exact ih (objStep digest net assetsFolder fs o).1 q checksum size
      (objStep_pres digest net assetsFolder fs o q checksum size hv
        (hspec o (List.mem_cons_self o chunk)))
      (fun o' ho' => hspec o' (List.mem_cons_of_mem o ho'))

theorem runChunk_post (digest : Bytes → String) (net : String → Nat → FetchOutcome)
    (assetsFolder : String) :
    ∀ (chunk : List AObj) (fs : FS),
      firstErr (runChunk digest net assetsFolder fs chunk).2 = none →
      (∀ o1 ∈ chunk, ∀ o2 ∈ chunk,
        objectPath assetsFolder o1.hash = objectPath assetsFolder o2.hash →
        o1.hash = o2.hash ∧ o1.size = o2.size) →
      ∀ o ∈ chunk, verifiedFile digest (runChunk digest net assetsFolder fs chunk).1
        (objectPath assetsFolder o.hash) o.hash o.size := by
  intro chunk
  induction chunk with
  | nil => intro fs _ _ o ho; exact absurd ho (List.not_mem_nil o)
  | cons o0 chunk ih =>
    intro fs herr hc o ho
    rw [runChunk_cons] at herr ⊢
    dsimp only at herr ⊢
    obtain ⟨⟨d0, hd0⟩, herr'⟩ := (firstErr_cons_none _ _).mp herr
    rcases List.mem_cons.mp ho with rfl | ho'
    · -- the head object: verified by its own step, preserved by the tail
      refine runChunk_pres digest net assetsFolder chunk _ _ _ _
        (objStep_post digest net assetsFolder fs o d0 hd0) ?_
      intro o' ho' heq
      exact (hc o' (List.mem_cons_of_mem o ho') o (List.mem_cons_self o chunk) heq.symm).imp
        Eq.symm Eq.symm
    · exact ih (objStep digest net assetsFolder fs o0).1 herr'
        (fun o1 h1 o2 h2 => hc o1 (List.mem_cons_of_mem o0 h1) o2 (List.mem_cons_of_mem o0 h2))
        o ho'

theorem runChunks_spec (digest : Bytes → String) (net : String → Nat → FetchOutcome)
    (assetsFolder : String) :
    ∀ (chunks : List (List AObj)) (fs : FS) (count : Nat) (fs' : FS) (count' : Nat),
      runChunks digest net assetsFolder chunks fs count = .ok (fs', count') →
      ((∀ q, (∀ c ∈ chunks, ∀ o ∈ c, q ≠ objectPath assetsFolder o.hash) →
          fsGet fs' q = fsGet fs q) ∧
        (∀ q checksum size, verifiedFile digest fs q checksum size →
          (∀ c ∈ chunks, ∀ o ∈ c, q = objectPath assetsFolder o.hash →
            checksum = o.hash ∧ size = o.size) →
          verifiedFile digest fs' q checksum size) ∧
        ((∀ c1 ∈ chunks, ∀ o1 ∈ c1, ∀ c2 ∈ chunks, ∀ o2 ∈ c2,
            objectPath assetsFolder o1.hash = objectPath assetsFolder o2.hash →
            o1.hash = o2.hash ∧ o1.size = o2.size) →
          ∀ c ∈ chunks, ∀ o ∈ c,
            verifiedFile digest fs' (objectPath assetsFolder o.hash) o.hash o.size)) := by
  intro chunks
  induction chunks with
  | nil =>
    intro fs count fs' count' h
    simp only [runChunks, Except.ok.injEq, Prod.mk.injEq] at h
    obtain ⟨rfl, _⟩ := h
    exact ⟨fun q _ => rfl, fun q ck sz hv _ => hv,
      fun _ c hc => absurd hc (List.not_mem_nil c)⟩
  | cons c0 chunks ih =>
    intro fs count fs' count' h
    simp only [runChunks] at h
    cases hfe : firstErr (runChunk digest net assetsFolder fs c0).2 with
    | some e => rw [hfe] at h; exact absurd h (by simp)
    | none =>
      rw [hfe] at h
      obtain ⟨hframe, hpres, hpost⟩ :=
        ih (runChunk digest net assetsFolder fs c0).1 _ fs' count' h
      refine ⟨?_, ?_, ?_⟩
      · intro q hq
        rw [hframe q (fun c hc o ho => hq c (List.mem_cons_of_mem c0 hc) o ho)]
        exact runChunk_frame digest net assetsFolder c0 fs q
          (fun o ho => hq c0 (List.mem_cons_self c0 chunks) o ho)
      · intro q ck sz hv hspec
        exact hpres q ck sz
          (runChunk_pres digest net assetsFolder c0 fs q ck sz hv
            (fun o ho => hspec c0 (List.mem_cons_self c0 chunks) o ho))
          (fun c hc o ho => hspec c (List.mem_cons_of_mem c0 hc) o ho)
      · intro hcons c hc o ho
        rcases List.mem_cons.mp hc with rfl | hc'
        · -- object of the first batch: settled by it, preserved by the rest
          refine hpres (objectPath assetsFolder o.hash) o.hash o.size
            (runChunk_post digest net assetsFolder c fs hfe
              (fun o1 h1 o2 h2 => hcons c (List.mem_cons_self c chunks) o1 h1 c
                (List.mem_cons_self c chunks) o2 h2)
              o ho) ?_
          intro c2 hc2 o2 ho2 heq
          exact (hcons c2 (List.mem_cons_of_mem c hc2) o2 ho2 c
            (List.mem_cons_self c chunks) o ho heq.symm).imp Eq.symm Eq.symm
        · exact hpost
            (fun c1 h1 o1 ho1 c2 h2 o2 ho2 => hcons c1 (List.mem_cons_of_mem c0 h1) o1 ho1
              c2 (List.mem_cons_of_mem c0 h2) o2 ho2)
            c hc' o ho

theorem exists_chunk_of_mem {α : Type} (n : Nat) (hn : n ≠ 0) (l : List α) (o : α)
    (ho : o ∈ l) : ∃ c ∈ chunksOf n l, o ∈ c := by
  rw [← chunksOf_flatten n hn l] at ho
  exact List.mem_flatten.mp ho

theorem processIndex_spec (digest : Bytes → String)
    (parseIndex : Bytes → Option (List (String × AObj)))
    (net : String → Nat → FetchOutcome) (assetsFolder : String) (fs : FS)
    (d : AssetIndexDescr) (fs' : FS) (cnt : Nat)
    (h : processIndex digest parseIndex net assetsFolder fs d = .ok (fs', cnt)) :
    ∃ b entries,
      fsGet fs' (indexPath assetsFolder d.id) = some b ∧
      b.length = d.size ∧ digest b = d.sha1 ∧
      parseIndex b = some entries ∧
      ((∀ o1 ∈ dedupObjects (objValues entries), ∀ o2 ∈ dedupObjects (objValues entries),
          objectPath assetsFolder o1.hash = objectPath assetsFolder o2.hash →
          o1.hash = o2.hash ∧ o1.size = o2.size) →
        ∀ o ∈ dedupObjects (objValues entries),
          verifiedFile digest fs' (objectPath assetsFolder o.hash) o.hash o.size) ∧
      (∀ q checksum size, verifiedFile digest fs q checksum size →
        (q = indexPath assetsFolder d.id → checksum = d.sha1 ∧ size = d.size) →
        (∀ o ∈ dedupObjects (objValues entries),
          q = objectPath assetsFolder o.hash → checksum = o.hash ∧ size = o.size) →
        verifiedFile digest fs' q checksum size) ∧
      (∀ q, q ≠ indexPath assetsFolder d.id →
        (∀ o ∈ dedupObjects (objValues entries), q ≠ objectPath assetsFolder o.hash) →
        fsGet fs' q = fsGet fs q) := by
  simp only [processIndex] at h
  cases hdl : downloadIfChanged digest (fsGet fs (indexPath assetsFolder d.id)) d.url
      d.sha1 d.size (net d.url) with
  | error e => rw [hdl] at h; exact absurd h (by simp)
  | ok pair =>
    obtain ⟨d0, w⟩ := pair
    rw [hdl] at h
    dsimp only at h
    rcases downloadIfChanged_ok_inversion digest _ _ _ _ _ d0 w hdl with
      ⟨_, hw, hvl⟩ | ⟨_, bW, hw, hlenW, hdigW⟩
    · -- the index file was reused: it was already present and verified
      subst hw
      obtain ⟨b, hb, hlen, hdig⟩ :=
        verifiedFile_of_verifiedLocal digest fs _ d.sha1 d.size hvl
      rw [hb] at h
      dsimp only at h
      cases hp : parseIndex b with
      | none => rw [hp] at h; exact absurd h (by simp)
      | some entries =>
        rw [hp] at h
        dsimp only at h
        obtain ⟨hframe, hpres, hpost⟩ :=
          runChunks_spec digest net assetsFolder _ fs 0 fs' cnt h
        have hnoobj : ∀ c ∈ chunksOf maxConcurrency (dedupObjects (objValues entries)),
            ∀ o ∈ c, indexPath assetsFolder d.id ≠ objectPath assetsFolder o.hash :=
          fun c _ o _ => indexPath_ne_objectPath assetsFolder d.id o.hash
        refine ⟨b, entries, by rw [hframe _ hnoobj]; exact hb, hlen, hdig, hp, ?_, ?_, ?_⟩
        · intro hcons o ho
          obtain ⟨c, hc, hoc⟩ := exists_chunk_of_mem maxConcurrency (by decide) _ o ho
          exact hpost
            (fun c1 h1 o1 ho1 c2 h2 o2 ho2 =>
              hcons o1 (mem_of_mem_chunksOf maxConcurrency (by decide) _ c1 h1 o1 ho1)
                o2 (mem_of_mem_chunksOf maxConcurrency (by decide) _ c2 h2 o2 ho2))
            c hc o hoc
        · intro q ck sz hv _ hspecO
          exact hpres q ck sz hv
            (fun c hc o ho =>
              hspecO o (mem_of_mem_chunksOf maxConcurrency (by decide) _ c hc o ho))
        · intro q _ hqO
          exact hframe q
            (fun c hc o ho =>
              hqO o (mem_of_mem_chunksOf maxConcurrency (by decide) _ c hc o ho))
    · -- the index file was downloaded and written
      subst hw
      dsimp only at h
      rw [fsGet_set, if_pos rfl] at h
      dsimp only at h
      cases hp : parseIndex bW with
      | none => rw [hp] at h; exact absurd h (by simp)
      | some entries =>
        rw [hp] at h
        dsimp only at h
        obtain ⟨hframe, hpres, hpost⟩ :=
          runChunks_spec digest net assetsFolder _ _ 0 fs' cnt h
        have hnoobj : ∀ c ∈ chunksOf maxConcurrency (dedupObjects (objValues entries)),
            ∀ o ∈ c, indexPath assetsFolder d.id ≠ objectPath assetsFolder o.hash :=
          fun c _ o _ => indexPath_ne_objectPath assetsFolder d.id o.hash
        have hb1 : fsGet (fsSet fs (indexPath assetsFolder d.id) bW)
            (indexPath assetsFolder d.id) = some bW := by
          rw [fsGet_set, if_pos rfl]
        refine ⟨bW, entries, by rw [hframe _ hnoobj]; exact hb1, hlenW, hdigW, hp, ?_, ?_, ?_⟩
        · intro hcons o ho
          obtain ⟨c, hc, hoc⟩ := exists_chunk_of_mem maxConcurrency (by decide) _ o ho
          exact hpost
            (fun c1 h1 o1 ho1 c2 h2 o2 ho2 =>
              hcons o1 (mem_of_mem_chunksOf maxConcurrency (by decide) _ c1 h1 o1 ho1)
                o2 (mem_of_mem_chunksOf maxConcurrency (by decide) _ c2 h2 o2 ho2))
            c hc o hoc
        · intro q ck sz hv hspecI hspecO
          refine hpres q ck sz ?_
            (fun c hc o ho =>
              hspecO o (mem_of_mem_chunksOf maxConcurrency (by decide) _ c hc o ho))
          by_cases hq : q = indexPath assetsFolder d.id
          · obtain ⟨rfl, rfl⟩ := hspecI hq
            exact ⟨bW, by rw [hq, fsGet_set, if_pos rfl], hlenW, hdigW⟩
          · exact verifiedFile_set_other digest fs _ bW q ck sz hq hv
        · intro q hqI hqO
          rw [hframe q
            (fun c hc o ho =>
              hqO o (mem_of_mem_chunksOf maxConcurrency (by decide) _ c hc o ho))]
          rw [fsGet_set, if_neg hqI]

theorem processIndices_spec (digest : Bytes → String)
    (parseIndex : Bytes → Option (List (String × AObj)))
    (net : String → Nat → FetchOutcome) (assetsFolder : String) :
    ∀ (list : List AssetIndexDescr) (fs : FS) (counts : List Nat) (fs' : FS)
      (counts' : List Nat),
      processIndices digest parseIndex net assetsFolder list fs counts = .ok (fs', counts') →
      (list.map AssetIndexDescr.id).Nodup →
      (∀ d1 ∈ list, ∀ d2 ∈ list, ∀ o1 ∈ indexObjects parseIndex assetsFolder fs' d1,
        ∀ o2 ∈ indexObjects parseIndex assetsFolder fs' d2,
        objectPath assetsFolder o1.hash = objectPath assetsFolder o2.hash →
        o1.hash = o2.hash ∧ o1.size = o2.size) →
      ((∀ d ∈ list, IndexSettled digest parseIndex assetsFolder fs' d) ∧
        (∀ q checksum size, verifiedFile digest fs q checksum size →
          (∀ d ∈ list, q = indexPath assetsFolder d.id → checksum = d.sha1 ∧ size = d.size) →
          (∀ d ∈ list, ∀ o ∈ indexObjects parseIndex assetsFolder fs' d,
            q = objectPath assetsFolder o.hash → checksum = o.hash ∧ size = o.size) →
          verifiedFile digest fs' q checksum size) ∧
        (∀ q, (∀ d ∈ list, q ≠ indexPath assetsFolder d.id) →
          (∀ d ∈ list, ∀ o ∈ indexObjects parseIndex assetsFolder fs' d,
            q ≠ objectPath assetsFolder o.hash) →
          fsGet fs' q = fsGet fs q) ∧
        counts'.length = counts.length + list.length) := by
  intro list
  induction list with
  | nil =>
    intro fs counts fs' counts' h _ _
    simp only [processIndices, Except.ok.injEq, Prod.mk.injEq] at h
    obtain ⟨rfl, rfl⟩ := h
    exact ⟨fun d hd => absurd hd (List.not_mem_nil d),
      fun q ck sz hv _ _ => hv, fun q _ _ => rfl, by simp⟩
  | cons d list ih =>
    intro fs counts fs' counts' h hnodup hcons
    simp only [processIndices] at h
    cases hpi : processIndex digest parseIndex net assetsFolder fs d with
    | error e => rw [hpi] at h; exact absurd h (by simp)
    | ok pair =>
      obtain ⟨fs1, c1⟩ := pair
      rw [hpi] at h
      dsimp only at h
      simp only [List.map_cons, List.nodup_cons] at hnodup
      obtain ⟨hid_notin, hnodup'⟩ := hnodup
      have hconsTail : ∀ d1 ∈ list, ∀ d2 ∈ list,
          ∀ o1 ∈ indexObjects parseIndex assetsFolder fs' d1,
          ∀ o2 ∈ indexObjects parseIndex assetsFolder fs' d2,
          objectPath assetsFolder o1.hash = objectPath assetsFolder o2.hash →
          o1.hash = o2.hash ∧ o1.size = o2.size :=
        fun d1 h1 d2 h2 =>
          hcons d1 (List.mem_cons_of_mem d h1) d2 (List.mem_cons_of_mem d h2)
      obtain ⟨hsetTail, hpresTail, hframeTail, hlenTail⟩ :=
        ih fs1 (counts ++ [c1]) fs' counts' h hnodup' hconsTail
      obtain ⟨b, entries, hb1, hlen, hdig, hp, hverif1, hpres1, hframe1⟩ :=
        processIndex_spec digest parseIndex net assetsFolder fs d fs1 c1 hpi
      have hdmem : d ∈ d :: list := List.mem_cons_self d list
      have hipathTail : ∀ d' ∈ list,
          indexPath assetsFolder d.id ≠ indexPath assetsFolder d'.id := by
        intro d' hd' he
        exact hid_notin (indexPath_inj assetsFolder d.id d'.id he ▸
          List.mem_map_of_mem AssetIndexDescr.id hd')
      have hbF : fsGet fs' (indexPath assetsFolder d.id) = some b := by
        rw [hframeTail (indexPath assetsFolder d.id) hipathTail
          (fun d' hd' o ho => indexPath_ne_objectPath assetsFolder d.id o.hash)]
        exact hb1
      have hioF : indexObjects parseIndex assetsFolder fs' d =
          dedupObjects (objValues entries) := by
        simp [indexObjects, hbF, hp]
      have hheadObjsF : ∀ o ∈ dedupObjects (objValues entries),
          verifiedFile digest fs' (objectPath assetsFolder o.hash) o.hash o.size := by
        intro o ho
        have hwithin : ∀ o1 ∈ dedupObjects (objValues entries),
            ∀ o2 ∈ dedupObjects (objValues entries),
            objectPath assetsFolder o1.hash = objectPath assetsFolder o2.hash →
            o1.hash = o2.hash ∧ o1.size = o2.size := by
          intro o1 h1 o2 h2 he
          exact hcons d hdmem d hdmem o1 (hioF.symm ▸ h1) o2 (hioF.symm ▸ h2) he
        refine hpresTail _ _ _ (hverif1 hwithin o ho) ?_ ?_
        · intro d' hd' he
          exact absurd he.symm (indexPath_ne_objectPath assetsFolder d'.id o.hash)
        · intro d' hd' o' ho' he
          exact hcons d hdmem d' (List.mem_cons_of_mem d hd') o (hioF.symm ▸ ho) o' ho' he
      refine ⟨?_, ?_, ?_, ?_⟩
      · intro d' hd'
        rcases List.mem_cons.mp hd' with rfl | hd''
        · exact ⟨b, entries, hbF, hlen, hdig, hp, hheadObjsF⟩
        · exact hsetTail d' hd''
      · intro q ck sz hv hspecI hspecO
        refine hpresTail q ck sz ?_
          (fun d' hd' => hspecI d' (List.mem_cons_of_mem d hd'))
          (fun d' hd' => hspecO d' (List.mem_cons_of_mem d hd'))
        refine hpres1 q ck sz hv (hspecI d hdmem) ?_
        intro o ho heq
        exact hspecO d hdmem o (hioF.symm ▸ ho) heq
      · intro q hqI hqO
        rw [hframeTail q (fun d' hd' => hqI d' (List.mem_cons_of_mem d hd'))
          (fun d' hd' => hqO d' (List.mem_cons_of_mem d hd'))]
        exact hframe1 q (hqI d hdmem)
          (fun o ho => hqO d hdmem o (hioF.symm ▸ ho))
      · rw [hlenTail, List.length_append]
        simp only [List.length_cons, List.length_nil]
        omega

theorem gai_ids_nodup (manifest : List VersionEntry)
    (metaFetch : String → Except String AssetIndexDescr) (versions : List String)
    (m : List (String × AssetIndexDescr))
    (h : getAssetIndices manifest metaFetch versions = .ok m) :
    ((objValues m).map AssetIndexDescr.id).Nodup := by
  obtain ⟨hnd, hprop⟩ := gaiGo_ok_spec manifest metaFetch versions [] m h
    List.nodup_nil (fun kv hkv => absurd hkv (List.not_mem_nil kv))
  have : (objValues m).map AssetIndexDescr.id = m.map Prod.fst := by
    simp only [objValues, List.map_map]
    apply List.map_congr_left
    intro kv hkv
    exact (hprop kv hkv).symm
  rw [this]
  exact hnd

theorem map_zero_of_length_eq {γ δ : Type} :
    ∀ (l1 : List γ) (l2 : List δ), l1.length = l2.length →
      l1.map (fun _ => (0 : Nat)) = l2.map (fun _ => (0 : Nat)) := by
  intro l1
  induction l1 with
  | nil =>
    intro l2 h
    cases l2 with
    | nil => rfl
    | cons x l2 => simp at h
  | cons x l1 ih =>
    intro l2 h
    cases l2 with
    | nil => simp at h
    | cons y l2 =>
      simp only [List.length_cons, Nat.add_right_cancel_iff] at h
      simp only [List.map_cons]
      rw [ih l2 h]

/-! ## Claims -/

/-- C1: for every object, `downloadIfChanged` performs a network fetch if and
only if the local file is not already correct.  A present file of the expected
size whose checksum matches is reused: the result is "not downloaded" with no
write, independently of the network.  An absent, wrongly-sized or
wrongly-hashed file leads to a download; on an immediately accepted response
the body is written and the result is "downloaded".  The checksum function is
only ever consulted on byte strings of the expected size (in particular the
local checksum is only computed when the size already matches). -/
theorem claim1_download_iff_changed (digest : Bytes → String)
    (localContent : Option Bytes) (url checksum : String) (size : Nat) :
    ((verifiedLocal digest localContent checksum size = true) ↔
      ∃ b, localContent = some b ∧ b.length = size ∧ digest b = checksum) ∧
    (∀ b, localContent = some b → b.length = size → digest b = checksum →
      ∀ net, downloadIfChanged digest localContent url checksum size net =
        .ok (false, none)) ∧
    (verifiedLocal digest localContent checksum size = false →
      ∀ net, goodResp digest checksum size (net 0) = true →
        downloadIfChanged digest localContent url checksum size net =
          .ok (true, some (bodyOf (net 0)))) ∧
    (∀ (digest' : Bytes → String) (net : Nat → FetchOutcome),
      (∀ x : Bytes, x.length = size → digest x = digest' x) →
      downloadIfChanged digest localContent url checksum size net =
        downloadIfChanged digest' localContent url checksum size net) := by
  refine ⟨⟨?_, ?_⟩, ?_, ?_, ?_⟩
  · intro h
    cases localContent with
    | none => simp [verifiedLocal] at h
    | some b =>
      simp only [verifiedLocal] at h
      by_cases hsz : b.length = size
      · rw [if_pos hsz] at h
        exact ⟨b, rfl, hsz, by rwa [beq_iff_eq] at h⟩
      · rw [if_neg hsz] at h
        exact absurd h (by simp)
  · rintro ⟨b, rfl, hsz, hck⟩
    simp [verifiedLocal, if_pos hsz, hck]
  · intro b hb hsz hck net
    apply downloadIfChanged_reuse
    rw [hb]
    simp [verifiedLocal, if_pos hsz, hck]
  · intro hmiss net hgood
    exact downloadIfChanged_succeeds digest localContent url checksum size net 0 hmiss
      (by rw [show maxDownloadRetries = 5 from rfl]; omega)
      (fun i hi => absurd hi (by omega)) hgood
  · intro digest' net hd
    exact downloadIfChanged_digest_congr digest digest' localContent url checksum size net hd

/-- C1 witness: a correct one-byte local file is reused; an absent one is
downloaded and written. -/
theorem claim1_download_iff_changed_witness :
    downloadIfChanged wDigest (some [1]) "u" "hh" 1 wNetGood = .ok (false, none) ∧
    downloadIfChanged wDigest none "u" "hh" 1 wNetGood = .ok (true, some [1]) := by
  constructor
  · exact (claim1_download_iff_changed wDigest (some [1]) "u" "hh" 1).2.1 [1]
      rfl (by decide) (by decide) wNetGood
  · exact (claim1_download_iff_changed wDigest none "u" "hh" 1).2.2.1
      (by decide) wNetGood (by decide)

/-- C9: a transport-level failure of an object fetch (the fetch call itself
raising instead of resolving to a response with a status) is not retried and
not wrapped in a DownloadFailed error: on whichever attempt it occurs, however
many of the retry attempts remain, the exception propagates immediately out of
`downloadIfChanged` as is. -/
theorem claim9_transport_error_propagates (digest : Bytes → String)
    (localContent : Option Bytes) (url checksum : String) (size : Nat)
    (net : Nat → FetchOutcome) (k : Nat) (msg : String)
    (hmiss : verifiedLocal digest localContent checksum size = false)
    (hk : k < maxDownloadRetries)
    (hfail : ∀ i, i < k → retryFail digest checksum size (net i) = true)
    (hthrown : net k = .thrown msg) :
    downloadIfChanged digest localContent url checksum size net =
      .error (.fetchThrown msg) ∧
    (∀ u r, DlError.fetchThrown msg ≠ DlError.downloadFailed u r) := by
  exact ⟨downloadIfChanged_thrown digest localContent url checksum size net k msg
    hmiss hk hfail hthrown, fun u r h => DlError.noConfusion h⟩

/-- C9 witness: the second attempt rejects at transport level after one
retryable HTTP 500; the rejection escapes immediately although three retry
attempts would remain. -/
theorem claim9_transport_error_propagates_witness :
    downloadIfChanged wDigest none "u" "hh" 1 wNetThrow =
      .error (.fetchThrown "ECONNREFUSED") := by
  exact (claim9_transport_error_propagates wDigest none "u" "hh" 1 wNetThrow 1
    "ECONNREFUSED" (by decide) (by decide)
    (fun i hi => by rw [Nat.lt_one_iff] at hi; subst hi; decide) rfl).1

/-- C2: at most `maxDownloadRetries = 5` fetch attempts are made per object
download (the result depends on the network only through the first five
attempt outcomes); attempts rejected for a non-success status, a body of the
wrong length, or a wrong digest are retried uniformly; an accepted attempt
`n < 5` (after `n` retryable failures) writes the body and yields
"downloaded"; five retryable failures yield a DownloadFailed error carrying
the URL and the reason of the last failed attempt; such an error is fatal for
the whole sync run: `downloadAssets` surfaces it instead of a result rather
than isolating it per object. -/
theorem claim2_retry_policy (digest : Bytes → String)
    (localContent : Option Bytes) (url checksum : String) (size : Nat) :
    maxDownloadRetries = 5 ∧
    (∀ net net', (∀ i, i < maxDownloadRetries → net i = net' i) →
      downloadIfChanged digest localContent url checksum size net =
        downloadIfChanged digest localContent url checksum size net') ∧
    (verifiedLocal digest localContent checksum size = false →
      ∀ (net : Nat → FetchOutcome) (n : Nat), n < maxDownloadRetries →
        (∀ i, i < n → retryFail digest checksum size (net i) = true) →
        goodResp digest checksum size (net n) = true →
        downloadIfChanged digest localContent url checksum size net =
          .ok (true, some (bodyOf (net n)))) ∧
    (verifiedLocal digest localContent checksum size = false →
      ∀ (net : Nat → FetchOutcome) (r : String),
        (∀ i, i < maxDownloadRetries → retryFail digest checksum size (net i) = true) →
        failReason digest checksum size (net (maxDownloadRetries - 1)) = some r →
        downloadIfChanged digest localContent url checksum size net =
          .error (.downloadFailed url r)) ∧
    (∀ (parseIndex : Bytes → Option (List (String × AObj)))
        (net : String → Nat → FetchOutcome) (manifest : List VersionEntry)
        (metaFetch : String → Except String AssetIndexDescr)
        (versions : List String) (assetsFolder : String) (fs : FS)
        (key : String) (d : AssetIndexDescr) (entries : List (String × AObj))
        (o : AObj) (rest : List AObj) (r : String),
      getAssetIndices manifest metaFetch versions = .ok [(key, d)] →
      verifiedFile digest fs (indexPath assetsFolder d.id) d.sha1 d.size →
      (∀ bIdx, fsGet fs (indexPath assetsFolder d.id) = some bIdx →
        parseIndex bIdx = some entries) →
      dedupObjects (objValues entries) = o :: rest →
      verifiedLocal digest (fsGet fs (objectPath assetsFolder o.hash)) o.hash o.size = false →
      (∀ i, i < maxDownloadRetries →
        retryFail digest o.hash o.size (net (objectUrl o.hash) i) = true) →
      failReason digest o.hash o.size
        (net (objectUrl o.hash) (maxDownloadRetries - 1)) = some r →
      downloadAssets digest parseIndex net manifest metaFetch versions assetsFolder fs =
        .error (.download (.downloadFailed (objectUrl o.hash) r))) := by
  refine ⟨rfl, ?_, ?_, ?_, ?_⟩
  · intro net net' hagree
    exact downloadIfChanged_net_congr digest localContent url checksum size net net' hagree
  · intro hmiss net n hn hfail hgood
    exact downloadIfChanged_succeeds digest localContent url checksum size net n
      hmiss hn hfail hgood
  · intro hmiss net r hfail hlast
    exact downloadIfChanged_exhaust digest localContent url checksum size net r
      hmiss hfail hlast
  · intro parseIndex net manifest metaFetch versions assetsFolder fs key d entries
      o rest r hgai hvf hparse hdedup hmiss hfail hlast
    obtain ⟨bIdx, hbIdx, hlen, hdig⟩ := hvf
    have hvl : verifiedLocal digest (fsGet fs (indexPath assetsFolder d.id))
        d.sha1 d.size = true :=
      verifiedLocal_of_verifiedFile digest fs _ d.sha1 d.size ⟨bIdx, hbIdx, hlen, hdig⟩
    have hobj : downloadIfChanged digest (fsGet fs (objectPath assetsFolder o.hash))
        (objectUrl o.hash) o.hash o.size (net (objectUrl o.hash)) =
        .error (.downloadFailed (objectUrl o.hash) r) :=
      downloadIfChanged_exhaust digest _ _ o.hash o.size _ r hmiss hfail hlast
    simp only [downloadAssets, hgai]
    show processIndices digest parseIndex net assetsFolder [d] fs [] = _
    simp only [processIndices, processIndex]
    rw [downloadIfChanged_reuse digest _ d.url d.sha1 d.size _ hvl]
    dsimp only
    rw [hbIdx]
    dsimp only
    rw [hparse bIdx hbIdx]
    dsimp only
    rw [hdedup]
    rw [chunksOf_cons_eq maxConcurrency (o :: rest) (by simp) (by decide)]
    simp only [runChunks]
    rw [show (o :: rest).take maxConcurrency = o :: rest.take 19 from rfl]
    rw [runChunk_cons]
    simp only [objStep]
    rw [hobj]
    dsimp only
    simp only [firstErr]

/-- C2 witness: with an absent local file, a network failing the first two
attempts with HTTP 500 and succeeding on the third is accepted, and a network
failing all five attempts raises DownloadFailed with the URL and the last
reason; the latter propagates out of a one-index, one-object `downloadAssets`
run. -/
theorem claim2_retry_policy_witness :
    downloadIfChanged wDigest none "u" "hh" 1 wNetLate = .ok (true, some [1]) ∧
    downloadIfChanged wDigest none "u" "hh" 1 wNet500 =
      .error (.downloadFailed "u" (httpErrorMsg 500)) ∧
    downloadAssets wDigest
      (fun b => if b = [7] then some [("p", ⟨"aa", 1⟩)] else none)
      (fun _ => wNet500)
      [⟨"1.21.1", "mu"⟩]
      (fun u => if u = "mu" then .ok ⟨"17", "iu", "xx", 1⟩ else .error "nf")
      ["1.21.1"] "assets" [(indexPath "assets" "17", [7])] =
      .error (.download (.downloadFailed (objectUrl "aa") (httpErrorMsg 500))) := by
  have h5 : ∀ i, i < maxDownloadRetries → retryFail wDigest "hh" 1 (wNet500 i) = true := by
    intro i _
    show retryFail wDigest "hh" 1 (FetchOutcome.resp 500 []) = true
    decide
  refine ⟨?_, ?_, ?_⟩
  · exact (claim2_retry_policy wDigest none "u" "hh" 1).2.2.1 (by decide) wNetLate 2
      (by decide) (fun i hi => by interval_cases i <;> decide) (by decide)
  · exact (claim2_retry_policy wDigest none "u" "hh" 1).2.2.2.1 (by decide) wNet500
      (httpErrorMsg 500) h5 (by decide)
  · refine (claim2_retry_policy wDigest none "u" "hh" 1).2.2.2.2
      (fun b => if b = [7] then some [("p", ⟨"aa", 1⟩)] else none)
      (fun _ => wNet500) [⟨"1.21.1", "mu"⟩]
      (fun u => if u = "mu" then .ok ⟨"17", "iu", "xx", 1⟩ else .error "nf")
      ["1.21.1"] "assets" [(indexPath "assets" "17", [7])]
      "17" ⟨"17", "iu", "xx", 1⟩ [("p", ⟨"aa", 1⟩)] ⟨"aa", 1⟩ [] (httpErrorMsg 500)
      rfl ⟨[7], rfl, by decide, by decide⟩ ?_ rfl (by decide)
      (fun i _ => by
        show retryFail wDigest "aa" 1 (FetchOutcome.resp 500 []) = true
        decide)
      (by decide)
    intro bIdx hb
    have h7 : bIdx = [7] :=
      Option.some.inj (hb.symm.trans
        (show fsGet [(indexPath "assets" "17", [7])] (indexPath "assets" "17") =
          some [7] from rfl))
    subst h7
    rfl

/-- C3: for every parsed manifest, objects sharing a content hash are reduced
to exactly one element of the deduplicated object set — each hash occurring in
the manifest occurs exactly once among the deduplicated objects, every
deduplicated element is one of the parsed objects, and the logical paths of
the manifest are discarded — so one download/verify operation and one written
file correspond to each hash, at the path
`objects/<first-2-hex-chars-of-hash>/<hash>`. -/
theorem claim3_dedup_by_hash (entries : List (String × AObj)) (assetsFolder : String) :
    ((dedupObjects (objValues entries)).map AObj.hash).Nodup ∧
    (∀ h, ((dedupObjects (objValues entries)).map AObj.hash).count h =
      if h ∈ (objValues entries).map AObj.hash then 1 else 0) ∧
    (∀ o ∈ dedupObjects (objValues entries), o ∈ objValues entries) ∧
    (∀ hash, objectPath assetsFolder hash =
      assetsFolder ++ "/objects/" ++ hash.take 2 ++ "/" ++ hash) := by
  refine ⟨dedupObjects_nodup _, ?_, dedupObjects_subset _, ?_⟩
  · intro h
    by_cases hm : h ∈ (objValues entries).map AObj.hash
    · rw [if_pos hm]
      exact List.count_eq_one_of_mem (dedupObjects_nodup _)
        ((dedupObjects_mem_hash _ h).mpr hm)
    · rw [if_neg hm]
      exact List.count_eq_zero_of_not_mem
        (fun hc => hm ((dedupObjects_mem_hash _ h).mp hc))
  · intro hash
    simp only [objectPath, pjoin, hashPre]
    have h1 : assetsFolder ++ "/" ++ "objects" ++ "/" = assetsFolder ++ "/objects/" := by
      rw [String.append_assoc, String.append_assoc]
      rfl
    rw [h1]

/-- C3 witness: two manifest paths with one hash contribute a single
deduplicated object stored under `objects/aa/aabb`. -/
theorem claim3_dedup_by_hash_witness :
    ((dedupObjects (objValues wEntries)).map AObj.hash).count "aabb" = 1 ∧
    AObj.mk "aabb" 1 ∈ objValues wEntries ∧
    objectPath "assets" "aabb" = "assets/objects/aa/aabb" := by
  refine ⟨?_, ?_, ?_⟩
  · have h := (claim3_dedup_by_hash wEntries "assets").2.1 "aabb"
    rwa [if_pos (by decide)] at h
  · exact (claim3_dedup_by_hash wEntries "assets").2.2.1 ⟨"aabb", 1⟩ (by decide)
  · rw [(claim3_dedup_by_hash wEntries "assets").2.2.2 "aabb"]
    decide

/-- C4: if any requested version is absent from the global version manifest,
resolution fails with VersionNotFound for a missing version (no mapping is
produced), and `downloadAssets` forwards the resolution error untouched, for
every digest, parser, network and filesystem — so no object download is
attempted; otherwise the result is a mapping keyed by asset-index descriptor
id without duplicate keys, so versions sharing one asset index are processed
once. -/
theorem claim4_version_not_found (manifest : List VersionEntry)
    (metaFetch : String → Except String AssetIndexDescr) (versions : List String) :
    ((∀ e ∈ manifest, e.url ≠ "") → (∀ u, ∃ d, metaFetch u = .ok d) →
      ∀ v ∈ versions, (∀ e ∈ manifest, e.id ≠ v) →
      ∃ w, (w ∈ versions ∧ ∀ e ∈ manifest, e.id ≠ w) ∧
        getAssetIndices manifest metaFetch versions = .error (.versionNotFound w)) ∧
    (∀ e, getAssetIndices manifest metaFetch versions = .error e →
      ∀ digest parseIndex net assetsFolder fs,
        downloadAssets digest parseIndex net manifest metaFetch versions
          assetsFolder fs = .error (.resolve e)) ∧
    (∀ m, getAssetIndices manifest metaFetch versions = .ok m →
      (m.map Prod.fst).Nodup ∧ ∀ kv ∈ m, kv.1 = kv.2.id) := by
  refine ⟨?_, ?_, ?_⟩
  · intro hurl hmeta v hv hmiss
    exact gaiGo_missing manifest metaFetch hurl hmeta versions [] ⟨v, hv, hmiss⟩
  · intro e he digest parseIndex net assetsFolder fs
    simp [downloadAssets, he]
  · intro m hm
    exact gaiGo_ok_spec manifest metaFetch versions [] m hm List.nodup_nil
      (fun kv hkv => absurd hkv (List.not_mem_nil kv))

/-- C4 witness: the unresolvable identifier "nonexistent-1.0" against a
one-entry catalog raises VersionNotFound and aborts `downloadAssets` without
any download. -/
theorem claim4_version_not_found_witness :
    (∃ w, (w ∈ ["nonexistent-1.0"] ∧
        ∀ e ∈ [VersionEntry.mk "1.21.1" "mu"], e.id ≠ w) ∧
      getAssetIndices [VersionEntry.mk "1.21.1" "mu"] wMeta ["nonexistent-1.0"] =
        .error (.versionNotFound w)) ∧
    downloadAssets wDigest (fun _ => none) (fun _ => wNet500)
      [VersionEntry.mk "1.21.1" "mu"] wMeta ["nonexistent-1.0"] "assets" [] =
      .error (.resolve (.versionNotFound "nonexistent-1.0")) := by
  constructor
  · exact (claim4_version_not_found [VersionEntry.mk "1.21.1" "mu"] wMeta
      ["nonexistent-1.0"]).1 (by decide) (fun u => ⟨_, rfl⟩)
      "nonexistent-1.0" (by decide) (by decide)
  · exact (claim4_version_not_found [VersionEntry.mk "1.21.1" "mu"] wMeta
      ["nonexistent-1.0"]).2.1 (.versionNotFound "nonexistent-1.0") rfl
      wDigest (fun _ => none) (fun _ => wNet500) "assets" []

/-- C6: the deduplicated object set is partitioned in iteration order into
consecutive batches of at most `maxConcurrency = 20` objects (each batch
nonempty, their concatenation the original list in order); in the model the
batches of `runChunks` are processed strictly one after another, every member
of a batch settling before the first failure of the batch (if any) aborts the
remaining batches, so at most 20 downloads are in flight at once. -/
theorem claim6_batching (l : List AObj) :
    maxConcurrency = 20 ∧
    (∀ c ∈ chunksOf maxConcurrency l, c.length ≤ maxConcurrency ∧ c ≠ []) ∧
    (chunksOf maxConcurrency l).flatten = l := by
  exact ⟨rfl, fun c hc => chunksOf_mem_facts maxConcurrency (by decide) l c hc,
    chunksOf_flatten maxConcurrency (by decide) l⟩

/-- C6 witness: 45 objects are partitioned into batches of 20, 20 and 5 whose
concatenation is the original list. -/
theorem claim6_batching_witness :
    (chunksOf maxConcurrency wObjs).flatten = wObjs ∧
    (wObjs.take 20).length ≤ maxConcurrency ∧ wObjs.take 20 ≠ [] := by
  refine ⟨(claim6_batching wObjs).2.2, ?_⟩
  exact (claim6_batching wObjs).2.1 (wObjs.take 20) (by decide)

/-- C8: the version-scrape is a pure function of the file content (or its
absence) and the pattern: an absent file yields "no match" for every pattern;
on the spec's concrete content and the multiline pattern
`/^\s*minecraft_version\s*=\s*(.+)\s*$/m` the first capturing group of the
first match is `"1.21.1"` (the commented-out `#minecraft_version=1.10` line
does not match the line-start anchor); content matched by nothing yields
"no match" rather than failing. -/
theorem claim8_version_scrape :
    (∀ pat, guessCurrentMinecraftVersionFromFile none pat = .ok none) ∧
    guessCurrentMinecraftVersionFromFile
      (some "hello world\n#minecraft_version=1.10\nminecraft_version=1.21.1\n")
      "/^\\s*minecraft_version\\s*=\\s*(.+)\\s*$/m" = .ok (some "1.21.1") ∧
    guessCurrentMinecraftVersionFromFile (some "hello world")
      "/minecraft_version=(\\w+)/" = .ok none := by
  exact ⟨fun pat => rfl, by rfl, by rfl⟩

/-- C10: when the version file exists but the configured string does not
contain the `/pattern/flags` shape (the split regular expression
`/\/(.*)\/([a-z]*)/` finds no match in it), the function throws instead of
returning "no match"; the shape is only examined after the file is read, so
an absent file yields "no match" even for a malformed pattern string. -/
theorem claim10_malformed_pattern_throws :
    (∀ content pat, regexExec false metaNodes pat.data = none →
      guessCurrentMinecraftVersionFromFile (some content) pat =
        .error "minecraft-version-regexp doesnt match format /regexp/flags") ∧
    (∀ pat, guessCurrentMinecraftVersionFromFile none pat = .ok none ∧
      ∀ msg, (Except.ok none : Except String (Option String)) ≠ .error msg) := by
  constructor
  · intro content pat h
    simp only [guessCurrentMinecraftVersionFromFile, h]
  · intro pat
    exact ⟨rfl, fun msg h => Except.noConfusion h⟩

/-- C10 witness: a pattern string without the delimited shape throws when the
file exists and is ignored when the file is absent. -/
theorem claim10_malformed_pattern_throws_witness :
    guessCurrentMinecraftVersionFromFile (some "hello world")
      "minecraft_version=(\\w+)" =
      .error "minecraft-version-regexp doesnt match format /regexp/flags" ∧
    guessCurrentMinecraftVersionFromFile none "minecraft_version=(\\w+)" = .ok none := by
  exact ⟨claim10_malformed_pattern_throws.1 "hello world" "minecraft_version=(\\w+)" rfl,
    (claim10_malformed_pattern_throws.2 "minecraft_version=(\\w+)").1⟩

/-- C5: the synchronizer is idempotent.  If a run succeeds producing
filesystem `fs1` and per-index download counts `counts`, and the run's data is
consistent (two objects of the run mapped to the same storage path agree on
hash and size — automatic for a content-addressed store), then a second run
against `fs1` succeeds with the same filesystem, performs zero downloads for
every index, and does so for an arbitrary network (no fetch is needed): every
index file and every object of the run is left verified in place. -/
theorem claim5_idempotent (digest : Bytes → String)
    (parseIndex : Bytes → Option (List (String × AObj)))
    (net net' : String → Nat → FetchOutcome) (manifest : List VersionEntry)
    (metaFetch : String → Except String AssetIndexDescr) (versions : List String)
    (assetsFolder : String) (fs fs1 : FS) (counts : List Nat)
    (h1 : downloadAssets digest parseIndex net manifest metaFetch versions
      assetsFolder fs = .ok (fs1, counts))
    (hcons : ∀ m, getAssetIndices manifest metaFetch versions = .ok m →
      ∀ d1 ∈ objValues m, ∀ d2 ∈ objValues m,
      ∀ o1 ∈ indexObjects parseIndex assetsFolder fs1 d1,
      ∀ o2 ∈ indexObjects parseIndex assetsFolder fs1 d2,
      objectPath assetsFolder o1.hash = objectPath assetsFolder o2.hash →
      o1.hash = o2.hash ∧ o1.size = o2.size) :
    downloadAssets digest parseIndex net' manifest metaFetch versions assetsFolder fs1 =
      .ok (fs1, counts.map (fun _ => 0)) ∧
    (∀ m, getAssetIndices manifest metaFetch versions = .ok m →
      ∀ d ∈ objValues m, IndexSettled digest parseIndex assetsFolder fs1 d) := by
  cases hgai : getAssetIndices manifest metaFetch versions with
  | error e =>
    simp only [downloadAssets, hgai] at h1
    exact absurd h1 (by simp)
  | ok m =>
    simp only [downloadAssets, hgai] at h1
    obtain ⟨hset, _, _, hlen⟩ :=
      processIndices_spec digest parseIndex net assetsFolder (objValues m) fs [] fs1
        counts h1 (gai_ids_nodup manifest metaFetch versions m hgai) (hcons m hgai)
    constructor
    · simp only [downloadAssets, hgai]
      rw [processIndices_settled digest parseIndex net' assetsFolder (objValues m)
        fs1 [] hset]
      rw [List.nil_append,
        map_zero_of_length_eq (objValues m) counts (by rw [hlen]; simp)]
    · intro m' hm'
      obtain rfl := Except.ok.inj hm'
      exact hset

/-- C5 witness: after a one-index, one-object run from an empty filesystem,
a second run against the produced filesystem succeeds with zero downloads and
an unchanged filesystem although its network rejects every fetch. -/
theorem claim5_idempotent_witness :
    downloadAssets wDigest2 wParse (fun _ _ => .thrown "offline")
      [VersionEntry.mk "1.21.1" "mu"] wMeta ["1.21.1"] "assets"
      [("assets/objects/aa/aa", [5]), ("assets/indexes/17.json", [7])] =
      .ok ([("assets/objects/aa/aa", [5]), ("assets/indexes/17.json", [7])], [0]) := by
  exact (claim5_idempotent wDigest2 wParse wNet2 (fun _ _ => .thrown "offline")
    [VersionEntry.mk "1.21.1" "mu"] wMeta ["1.21.1"] "assets" []
    [("assets/objects/aa/aa", [5]), ("assets/indexes/17.json", [7])] [1]
    rfl
    (by
      intro m hm
      have h0 : getAssetIndices [VersionEntry.mk "1.21.1" "mu"] wMeta ["1.21.1"] =
          .ok [("17", AssetIndexDescr.mk "17" "iu" "xx" 1)] := rfl
      rw [h0] at hm
      obtain rfl := Except.ok.inj hm
      decide)).1

end AssetsCache
